import Mathlib

/-!
# Verification of the `validationFpdModule` first-party-data filter

Shallow embedding of `src/modules/validationFpdModule/index.js` (Prebid.js).
JavaScript values are modelled by the inductive type `JVal`; the module's
functions (`isEmptyData`, `getRequiredData`, `typeValidation`,
`filterArrayData`, `validateFpd`, `runValidations`, `processFpd`) are
translated one-to-one.  JavaScript runtime errors (property access on
`null`/`undefined`, calling `.filter`/`.forEach` on a non-array) are
modelled with `Except Unit`.  The external schema table `ORTB_MAP` and the
module-global `optout` flag are threaded as explicit parameters.

The helpers imported from `src/utils.js` (`isEmpty`, `isNumber`,
`deepAccess`) are not part of the sources under verification; they are
modelled from the specification (see the doc comments below).
-/

/-- The base types named by a field descriptor's `type` entry
(`'string' | 'number' | 'object'`). -/
inductive JType where
  | string
  | number
  | object
deriving DecidableEq, Repr

/-- JavaScript numbers, split by finiteness so that `isFinite` is expressible.
Finite numbers are modelled as integers (no claim depends on fractional
values). -/
inductive JNum where
  | int (n : Int)
  | nan
  | inf
  | neginf
deriving DecidableEq, Repr

/-- JavaScript values: `null`, `undefined`, booleans, numbers, strings,
arrays and plain objects (assoc lists of own enumerable properties, in
insertion order). -/
inductive JVal where
  | jnull
  | undef
  | bool (b : Bool)
  | num (n : JNum)
  | str (s : String)
  | arr (xs : List JVal)
  | obj (fs : List (String × JVal))

/-- `typeof` for `JVal` (note `typeof null === 'object'`). -/
def jTypeof : JVal → String
  | .jnull => "object"
  | .undef => "undefined"
  | .bool _ => "boolean"
  | .num _ => "number"
  | .str _ => "string"
  | .arr _ => "object"
  | .obj _ => "object"

/-- JavaScript truthiness. -/
def jTruthy : JVal → Bool
  | .jnull => false
  | .undef => false
  | .bool b => b
  | .num (.int n) => n != 0
  | .num .nan => false
  | .num .inf => true
  | .num .neginf => true
  | .str s => !s.isEmpty
  | .arr _ => true
  | .obj _ => true

/-- `Array.isArray`. -/
def jIsArray : JVal → Bool
  | .arr _ => true
  | _ => false

/-- `isFinite` on a number. -/
def jFinite : JNum → Bool
  | .int _ => true
  | _ => false

/-- Property read `v[k]` for receivers on which it cannot throw
(everything except `null`/`undefined`); absent properties give
`undefined`.  Arrays and strings expose `length` and their canonical
numeric indices. -/
def jGetD : JVal → String → JVal
  | .obj fs, k => (fs.lookup k).getD .undef
  | .arr xs, k =>
      if k == "length" then .num (.int xs.length)
      else
        match (List.range xs.length).find? (fun i => toString i == k) with
        | some i => xs.getD i .undef
        | none => .undef
  | .str s, k =>
      if k == "length" then .num (.int s.length)
      else
        match (List.range s.length).find? (fun i => toString i == k) with
        | some i => .str (String.mk [s.toList.getD i (Char.ofNat 32)])
        | none => .undef
  | _, _ => (.undef)

/-- Property read `v[k]`, throwing (`TypeError`) on `null`/`undefined`
receivers, as JavaScript does. -/
def jGet : JVal → String → Except Unit JVal
  | .jnull, _ => .error ()
  | .undef, _ => .error ()
  | v, k => .ok (jGetD v k)

/-- `Object.keys`: own enumerable property names.  Arrays and strings
enumerate their indices; other primitives have none. -/
def jKeys : JVal → List String
  | .obj fs => fs.map (·.1)
  | .arr xs => (List.range xs.length).map toString
  | .str s => (List.range s.length).map toString
  | _ => []

/-- Property assignment `o[k] = v` on a plain object: overwrites in place
when `k` is already present, otherwise appends (JS insertion order). -/
def objSet : List (String × JVal) → String → JVal → List (String × JVal)
  | [], k, v => [(k, v)]
  | (k', v') :: rest, k, v =>
      if k' == k then (k, v) :: rest else (k', v') :: objSet rest k v

/-- Modelled from the spec: `isNumber` from `src/utils.js` (not under the
verified sources) — true exactly for numeric values, finite or not. -/
def isNumber : JVal → Bool
  | .num _ => true
  | _ => false

/-- Modelled from the spec: `isEmpty` from `src/utils.js` (not under the
verified sources) — a structured value with zero entries is empty, and a
falsy value is empty.  `isEmptyData` only consults it on values whose
`typeof` is `'object'` (`null`, arrays, plain objects). -/
def isEmpty : JVal → Bool
  | .jnull => true
  | .undef => true
  | .arr xs => xs.isEmpty
  | .obj fs => fs.isEmpty
  | .str s => s.isEmpty
  | _ => false

/-- `isEmptyData` (index.js lines 18-28): `check` starts `true`; a
non-empty `typeof-object` value, or a non-object value that is numeric or
truthy, flips it to `false`. -/
def isEmptyData (data : JVal) : Bool :=
  if jTypeof data == "object" then
    isEmpty data
  else
    !(isNumber data || jTruthy data)

/-- Diagnostics emitted through `logWarn`, one constructor per distinct
format string in the source. -/
inductive Diag where
  /-- line 152: `Filtered ${parent}${key} property in ortb2 data: invalid property` -/
  | invalidProp (path : String)
  /-- line 160: `Filtered ${parent}${key} property in ortb2 data: expected type ...` -/
  | expectedTypeProp (path : String) (ty : String)
  /-- line 167: `Filtered ${parent}${key} data: pubcid optout found` -/
  | optoutFound (path : String)
  /-- line 178: `Filtered ${parent}${key} property in ortb2 data: empty data found` -/
  | emptyData (path : String)
  /-- line 93 (array type stage): `Filtered ${parent}[] value at index ${i} in ortb2 data: expected type ${child.type}` -/
  | expectedTypeElem (parent : String) (i : Nat) (ty : String)
  /-- line 44 (`getRequiredData`): `Filtered ${parent}[] value at index ${i} in ortb2 data: missing required property ${key}` -/
  | missingReq (parent : String) (i : Nat) (key : String)
  /-- line 128 (array shape stage, note the doubled space in the source): `Filtered ${parent}[] value at index ${i}  in ortb2 data: expected type ${child.type}` -/
  | expectedTypeElem2 (parent : String) (i : Nat) (ty : String)
deriving DecidableEq, Repr

/-- A field descriptor of the schema table `ORTB_MAP` (an inductive rather
than a structure because `children` nests descriptors).  Boolean-valued
entries (`isArray`, `childisArray`, `invalid`, `optoutApplies`) are stored
with their truthiness already applied; optional entries (`type`,
`childType`, `required`, `children`) use `Option`, `none` standing for a
missing (`undefined`) entry. -/
inductive Mapping where
  | mk (type : Option JType) (isArray : Bool)
       (childType : Option JType) (childisArray : Bool)
       (required : Option (List String))
       (invalid : Bool) (optoutApplies : Bool)
       (children : Option (List (String × Mapping)))

def Mapping.type : Mapping → Option JType
  | .mk t _ _ _ _ _ _ _ => t

def Mapping.isArray : Mapping → Bool
  | .mk _ a _ _ _ _ _ _ => a

def Mapping.childType : Mapping → Option JType
  | .mk _ _ ct _ _ _ _ _ => ct

def Mapping.childisArray : Mapping → Bool
  | .mk _ _ _ ca _ _ _ _ => ca

def Mapping.required : Mapping → Option (List String)
  | .mk _ _ _ _ r _ _ _ => r

def Mapping.invalid : Mapping → Bool
  | .mk _ _ _ _ _ inv _ _ => inv

def Mapping.optoutApplies : Mapping → Bool
  | .mk _ _ _ _ _ _ o _ => o

def Mapping.children : Mapping → Option (List (String × Mapping))
  | .mk _ _ _ _ _ _ _ ch => ch

/-- The schema table: top-level entries of `ORTB_MAP`. -/
abbrev SchemaTbl := List (String × Mapping)

/-- Modelled from the spec: `deepAccess(ORTB_MAP, path)` from
`src/utils.js` (not under the verified sources).  The engine only builds
dotted paths of the shape `k₁.children.k₂.children.…kₙ`, represented here
by the key list `[k₁, …, kₙ]`; the lookup walks an entry, then its
`children`, and so on, returning `none` as soon as a step is missing. -/
def lookupPath (tbl : SchemaTbl) : List String → Option Mapping
  | [] => none
  | k :: rest =>
    match tbl.lookup k with
    | none => none
    | some m =>
      match rest with
      | [] => some m
      | _ => lookupPath (m.children.getD []) rest

/-- The `{type, isArray}` records handed to `typeValidation` and the
`child` argument of `filterArrayData`. -/
structure TypeDesc where
  type : Option JType
  isArray : Bool
deriving DecidableEq, Repr

/-- Rendering of a descriptor type in a diagnostic template string
(`${child.type}`); a missing entry prints as `undefined`. -/
def typeName : Option JType → String
  | some .string => "string"
  | some .number => "number"
  | some .object => "object"
  | none => "undefined"

/-- `typeValidation` (index.js lines 57-75): `switch (mapping.type)` with
cases `'string'` (a string), `'number'` (a finite number), `'object'`
(`typeof data === 'object'` — which includes `null` — with the array-ness
matching `mapping.isArray`); any other `type` leaves `check` false. -/
def typeValidation (data : JVal) (mapping : TypeDesc) : Bool :=
  match mapping.type with
  | some .string => jTypeof data == "string"
  | some .number => (match data with | .num n => jFinite n | _ => false)
  | some .object =>
      if jTypeof data == "object" then jIsArray data == mapping.isArray
      else false
  | none => false

/-- `getRequiredData` (index.js lines 38-49).  The `required` argument is
passed raw from `mapping.required`, so it may be `undefined` (`none`), in
which case `required.forEach` throws a `TypeError`.  For each key the
check is `!obj[key] || isEmptyData(obj[key])` — note the truthiness test,
which fails on any falsy value; `obj[key]` itself throws when `obj` is
`null`/`undefined`.  Failures do not short-circuit: every failing key
logs one warning, and `check` ends up `false`. -/
def getRequiredData (obj : JVal) (required : Option (List String))
    (parent : String) (i : Nat) : Except Unit (Bool × List Diag) :=
  match required with
  | none => .error ()
  | some req => reqFold obj parent i req
where
  /-- The `required.forEach(key => …)` loop: one warning per failing key,
  in order, and `check` ends up `false` as soon as any key fails. -/
  reqFold (obj : JVal) (parent : String) (i : Nat) :
      List String → Except Unit (Bool × List Diag)
  | [] => .ok (true, [])
  | key :: rest =>
    match jGet obj key with
    | .error e => .error e
    | .ok v =>
      match reqFold obj parent i rest with
      | .error e => .error e
      | .ok (c, ds) =>
        if !jTruthy v || isEmptyData v then
          .ok (false, Diag.missingReq parent i key :: ds)
        else
          .ok (c, ds)

/-! ## Size lemmas used for termination of the mutual recursion -/

/-- Structured values (`typeof === 'object'` and non-null): arrays and
plain objects. -/
def jIsStruct : JVal → Bool
  | .obj _ => true
  | .arr _ => true
  | _ => false

theorem sizeOf_lookup_lt {fs : List (String × JVal)} {k : String} {v : JVal}
    (h : fs.lookup k = some v) : sizeOf v < sizeOf fs := by
  induction fs with
  | nil => simp [List.lookup] at h
  | cons p rest ih =>
    obtain ⟨k', v'⟩ := p
    simp only [List.lookup] at h
    by_cases hk : (k == k') = true
    · rw [hk] at h
      simp only [Option.some.injEq] at h
      subst h
      simp only [List.cons.sizeOf_spec, Prod.mk.sizeOf_spec]
      omega
    · rw [Bool.not_eq_true] at hk
      rw [hk] at h
      have := ih h
      simp only [List.cons.sizeOf_spec]
      omega

theorem sizeOf_getD_lt {xs : List JVal} {i : Nat} (h : i < xs.length) :
    sizeOf (xs.getD i JVal.undef) < sizeOf xs := by
  rw [List.getD_eq_getElem _ _ h]
  exact List.sizeOf_lt_of_mem (List.getElem_mem h)

/-- A structured result of a property read is strictly smaller than the
receiver. -/
theorem jGetD_struct_lt (fpd : JVal) (k : String)
    (h : jIsStruct (jGetD fpd k) = true) : sizeOf (jGetD fpd k) < sizeOf fpd := by
  cases fpd with
  | obj fs =>
    simp only [jGetD] at h ⊢
    cases hl : fs.lookup k with
    | none => rw [hl] at h; simp [jIsStruct] at h
    | some v =>
      have := sizeOf_lookup_lt hl
      simp only [Option.getD_some, JVal.obj.sizeOf_spec]
      omega
  | arr xs =>
    simp only [jGetD] at h ⊢
    by_cases hlen : (k == "length") = true
    · rw [if_pos hlen] at h; simp [jIsStruct] at h
    · rw [if_neg hlen] at h ⊢
      cases hf : (List.range xs.length).find? (fun i => toString i == k) with
      | none => rw [hf] at h; simp [jIsStruct] at h
      | some i =>
        rw [hf] at h
        dsimp only at h ⊢
        have hi : i < xs.length := by
          have := List.mem_of_find?_eq_some hf
          simpa [List.mem_range] using this
        have := sizeOf_getD_lt hi
        simp only [JVal.arr.sizeOf_spec]
        omega
  | str s =>
    simp only [jGetD] at h
    by_cases hlen : (k == "length") = true
    · rw [if_pos hlen] at h; simp [jIsStruct] at h
    · rw [if_neg hlen] at h
      cases hf : (List.range s.length).find? (fun i => toString i == k) with
      | none => rw [hf] at h; simp [jIsStruct] at h
      | some i => rw [hf] at h; simp [jIsStruct] at h
  | jnull => simp [jGetD, jIsStruct] at h
  | undef => simp [jGetD, jIsStruct] at h
  | bool b => simp [jGetD, jIsStruct] at h
  | num n => simp [jGetD, jIsStruct] at h

theorem sublist_sizeOf_le {l₁ l₂ : List JVal} (h : l₁.Sublist l₂) :
    sizeOf l₁ ≤ sizeOf l₂ := by
  induction h with
  | slnil => exact Nat.le_refl _
  | cons a _ ih => simp only [List.cons.sizeOf_spec]; omega
  | cons₂ a _ ih => simp only [List.cons.sizeOf_spec]; omega

/-! ## The three per-key passes of `validateFpd` and the first two stages
of `filterArrayData` (non-recursive helpers) -/

/-- First per-key pass of `validateFpd` (lines 147-153): drop keys whose
descriptor has a truthy `invalid`.  The callback `return key` hands the
key string back to `Array.prototype.filter`, so the empty-string key is
falsy and dropped without a warning. -/
def pass1 (tbl : SchemaTbl) (path : List String) (parent : String) :
    List String → List String × List Diag
  | [] => ([], [])
  | k :: ks =>
    let r := pass1 tbl path parent ks
    let keep := match lookupPath tbl (path ++ [k]) with
                | some m => !m.invalid
                | none => true
    if keep then
      (if k == "" then r.1 else k :: r.1, r.2)
    else
      (r.1, Diag.invalidProp (parent ++ k) :: r.2)

/-- Second per-key pass of `validateFpd` (lines 153-161): drop keys whose
value fails `typeValidation` against their descriptor; keys with no
descriptor always pass (`typeBool || !mapping`). -/
def pass2 (tbl : SchemaTbl) (fpd : JVal) (path : List String) (parent : String) :
    List String → List String × List Diag
  | [] => ([], [])
  | k :: ks =>
    let r := pass2 tbl fpd path parent ks
    match lookupPath tbl (path ++ [k]) with
    | none => (if k == "" then r.1 else k :: r.1, r.2)
    | some m =>
      if typeValidation (jGetD fpd k) ⟨m.type, m.isArray⟩ then
        (if k == "" then r.1 else k :: r.1, r.2)
      else
        (r.1, Diag.expectedTypeProp (parent ++ k)
                (if m.isArray then "array" else typeName m.type) :: r.2)

/-- Type stage of `filterArrayData` (first `.filter`, lines 86-94); `i`
is the element's index in the original array. -/
def stage1 (child : TypeDesc) (parent : String) :
    Nat → List JVal → List JVal × List Diag
  | _, [] => ([], [])
  | i, v :: rest =>
    let r := stage1 child parent (i + 1) rest
    if typeValidation v ⟨child.type, child.isArray⟩ && (jIsArray v == child.isArray) then
      (v :: r.1, r.2)
    else
      (r.1, Diag.expectedTypeElem parent i (typeName child.type) :: r.2)

/-- Required stage of `filterArrayData` (second `.filter`, lines 94-100);
`i` restarts at 0 over the type stage's survivors.  `getRequiredData` is
only consulted when the descriptor at `path` has a (truthy) `required`
entry, and it can throw (null/undefined element). -/
def stage2 (tbl : SchemaTbl) (path : List String) (parent : String) :
    Nat → List JVal → Except Unit (List JVal × List Diag)
  | _, [] => .ok ([], [])
  | i, v :: rest =>
    match (match lookupPath tbl path with
           | some m =>
             if m.required.isSome then getRequiredData v m.required parent i
             else .ok (true, [])
           | none => .ok (true, [])) with
    | .error e => .error e
    | .ok (rc, ds) =>
      match stage2 tbl path parent (i + 1) rest with
      | .error e => .error e
      | .ok (r, ds') => .ok (if rc then v :: r else r, ds ++ ds')

theorem stage1_sublist (child : TypeDesc) (parent : String) (i : Nat)
    (xs : List JVal) : (stage1 child parent i xs).1.Sublist xs := by
  induction xs generalizing i with
  | nil => simp [stage1]
  | cons v rest ih =>
    simp only [stage1]
    split
    · exact (ih (i + 1)).cons₂ v
    · exact (ih (i + 1)).cons v

theorem stage2_sublist {tbl : SchemaTbl} {path : List String} {parent : String}
    {i : Nat} {l r : List JVal} {ds : List Diag}
    (h : stage2 tbl path parent i l = .ok (r, ds)) : r.Sublist l := by
  induction l generalizing i r ds with
  | nil => simp [stage2] at h; simp [h.1]
  | cons v rest ih =>
    simp only [stage2] at h
    split at h
    · exact absurd h (by simp)
    · rename_i rc0 ds0 heq
      split at h
      · exact absurd h (by simp)
      · rename_i r' ds' heq'
        simp only [Except.ok.injEq, Prod.mk.injEq] at h
        obtain ⟨h1, _⟩ := h
        subst h1
        split
        · exact (ih heq').cons₂ v
        · exact (ih heq').cons v

/-! ## The mutually recursive core: `validateFpd` and `filterArrayData` -/

mutual

/-- `validateFpd` (index.js lines 143-188).  `if (!fpd) return {}`; then
three per-key passes over `Object.keys(fpd)`: the invalid-property
filter, the type filter, and the building reduce (`vfReduce`, whose
per-key body is `reduceKey`).  The string path `path + key + '.children.'`
of the source is represented by appending `key` to the key list. -/
def validateFpd (tbl : SchemaTbl) (ou : Bool) (fpd : JVal)
    (path : List String) (parent : String) : Except Unit (JVal × List Diag) :=
  if jTruthy fpd = false then .ok (.obj [], [])
  else
    let p1 := pass1 tbl path parent (jKeys fpd)
    let p2 := pass2 tbl fpd path parent p1.1
    match vfReduce tbl ou fpd path parent [] p2.1 with
    | .error e => .error e
    | .ok (fields, d3) => .ok (.obj fields, p1.2 ++ p2.2 ++ d3)
termination_by (sizeOf fpd, 2, 0)
decreasing_by
  exact Prod.Lex.right _ (Prod.Lex.left _ _ (by omega))

/-- The `.reduce` of `validateFpd` (lines 161-184): fold `reduceKey` over
the surviving keys, accumulating `result` (with JS assignment semantics,
`objSet`) and the emitted warnings in order. -/
def vfReduce (tbl : SchemaTbl) (ou : Bool) (fpd : JVal)
    (path : List String) (parent : String)
    (acc : List (String × JVal)) :
    List String → Except Unit (List (String × JVal) × List Diag)
  | [] => .ok (acc, [])
  | k :: ks =>
    match reduceKey tbl ou fpd path parent k with
    | .error e => .error e
    | .ok (o, dk) =>
      match vfReduce tbl ou fpd path parent
              (match o with | some v => objSet acc k v | none => acc) ks with
      | .error e => .error e
      | .ok (fs, ds) => .ok (fs, dk ++ ds)
termination_by ks => (sizeOf fpd, 1, ks.length)
decreasing_by
  · exact Prod.Lex.right _ (Prod.Lex.left _ _ (by omega))
  · exact Prod.Lex.right _ (Prod.Lex.right _ (by simp [List.length_cons]))

/-- The body of `validateFpd`'s reduce for one key (lines 161-184):
redaction check, then the three-way ternary (`modStep`) choosing between
recursive object validation, array filtering, and verbatim pass-through,
then the emptiness check.  Keys without a descriptor are copied over
unchecked (line 180), with no emptiness check. -/
def reduceKey (tbl : SchemaTbl) (ou : Bool) (fpd : JVal)
    (path : List String) (parent : String) (k : String) :
    Except Unit (Option JVal × List Diag) :=
  match lookupPath tbl (path ++ [k]) with
  | none => .ok (some (jGetD fpd k), [])
  | some m =>
    if m.optoutApplies && ou then
      .ok (none, [Diag.optoutFound (parent ++ k)])
    else
      match modStep tbl ou fpd path parent k m with
      | .error e => .error e
      | .ok (modified, dm) =>
        if !isEmptyData modified then .ok (some modified, dm)
        else .ok (none, dm ++ [Diag.emptyData (parent ++ k)])
termination_by (sizeOf fpd, 0, 1)
decreasing_by
  exact Prod.Lex.right _ (Prod.Lex.right _ (by omega))

/-- The ternary computing `modified` (lines 171-174):
`(mapping.type === 'object' && !mapping.isArray) ? validateFpd(...) :
(mapping.isArray && mapping.childType) ? filterArrayData(...) : fpd[key]`. -/
def modStep (tbl : SchemaTbl) (ou : Bool) (fpd : JVal)
    (path : List String) (parent : String) (k : String) (m : Mapping) :
    Except Unit (JVal × List Diag) :=
  if m.type == some JType.object && !m.isArray then
    -- pass 2 guarantees `typeof fpd[key] === 'object'` here, so the
    -- value is null, an object or an array; validateFpd(null) = {}
    match hv : jGetD fpd k with
    | .obj fs => validateFpd tbl ou (.obj fs) (path ++ [k]) (parent ++ k ++ ".")
    | .arr xs => validateFpd tbl ou (.arr xs) (path ++ [k]) (parent ++ k ++ ".")
    | _ => .ok (.obj [], [])
  else if m.isArray && m.childType.isSome then
    match hv : jGetD fpd k with
    | .arr xs =>
      match filterArrayData tbl ou xs ⟨m.childType, m.childisArray⟩
              (path ++ [k]) (parent ++ k) with
      | .error e => .error e
      | .ok (ys, ds) => .ok (.arr ys, ds)
    | _ => .error ()   -- non-arrays have no .filter method: TypeError
  else .ok (jGetD fpd k, [])
termination_by (sizeOf fpd, 0, 0)
decreasing_by
  · refine Prod.Lex.left _ _ ?_
    have := jGetD_struct_lt fpd k (by rw [hv]; rfl)
    rw [hv] at this
    exact this
  · refine Prod.Lex.left _ _ ?_
    have := jGetD_struct_lt fpd k (by rw [hv]; rfl)
    rw [hv] at this
    exact this
  · refine Prod.Lex.left _ _ ?_
    have := jGetD_struct_lt fpd k (by rw [hv]; rfl)
    rw [hv] at this
    simp only [JVal.arr.sizeOf_spec] at this
    omega

/-- `filterArrayData` (index.js lines 85-134): the type stage, the
required stage, and the shape reduce (`faReduce`), with the warnings of
each stage in emission order. -/
def filterArrayData (tbl : SchemaTbl) (ou : Bool) (arr : List JVal)
    (child : TypeDesc) (path : List String) (parent : String) :
    Except Unit (List JVal × List Diag) :=
  let s1 := stage1 child parent 0 arr
  match h2 : stage2 tbl path parent 0 s1.1 with
  | .error e => .error e
  | .ok (s2, d2) =>
    match faReduce tbl ou child path parent 0 s2 with
    | .error e => .error e
    | .ok (r, d3) => .ok (r, s1.2 ++ d2 ++ d3)
termination_by (sizeOf arr, 3, 0)
decreasing_by
  have hle : sizeOf s2 ≤ sizeOf arr :=
    Nat.le_trans (sublist_sizeOf_le (stage2_sublist h2))
      (sublist_sizeOf_le (stage1_sublist child parent 0 arr))
  rcases Nat.lt_or_ge (sizeOf s2) (sizeOf arr) with hlt | hge
  · exact Prod.Lex.left _ _ hlt
  · have heq : sizeOf s2 = sizeOf arr := Nat.le_antisymm hle hge
    rw [heq]
    exact Prod.Lex.right _ (Prod.Lex.left _ _ (by omega))

/-- The `.reduce` of `filterArrayData` (lines 101-131): fold `faStep`
over the surviving elements, pushing kept values in order. -/
def faReduce (tbl : SchemaTbl) (ou : Bool) (child : TypeDesc)
    (path : List String) (parent : String) :
    Nat → List JVal → Except Unit (List JVal × List Diag)
  | _, [] => .ok ([], [])
  | i, v :: rest =>
    match faStep tbl ou child path parent i v with
    | .error e => .error e
    | .ok (o, dv) =>
      match faReduce tbl ou child path parent (i + 1) rest with
      | .error e => .error e
      | .ok (r, ds) =>
        .ok ((match o with | some w => w :: r | none => r), dv ++ ds)
termination_by i l => (sizeOf l, 2, 1)
decreasing_by
  · refine Prod.Lex.left _ _ ?_
    simp only [List.cons.sizeOf_spec]
    omega
  · refine Prod.Lex.left _ _ ?_
    simp only [List.cons.sizeOf_spec]
    omega

/-- The body of `filterArrayData`'s reduce for one element (lines
102-128): `'string'` elements are pushed; `'object'` elements are
recursively validated when the descriptor declares `children` (then
re-checked against `mapping.required` — passed raw, so a missing
`required` list throws) and pushed verbatim otherwise; any other child
type falls through the switch and is dropped with a warning. -/
def faStep (tbl : SchemaTbl) (ou : Bool) (child : TypeDesc)
    (path : List String) (parent : String) (i : Nat) (v : JVal) :
    Except Unit (Option JVal × List Diag) :=
  match child.type with
  | some .string => .ok (some v, [])
  | some .object =>
    (match lookupPath tbl path with
     | some m =>
       if m.children.isSome then
         match validateFpd tbl ou v path (parent ++ ".") with
         | .error e => .error e
         | .ok (validObject, dv) =>
           if (jKeys validObject).length ≠ 0 then
             match getRequiredData validObject m.required parent i with
             | .error e => .error e
             | .ok (rc, dr) =>
               if rc then .ok (some validObject, dv ++ dr)
               else .ok (none, dv ++ dr ++
                     [Diag.expectedTypeElem2 parent i (typeName child.type)])
           else
             .ok (none, dv ++
                   [Diag.expectedTypeElem2 parent i (typeName child.type)])
       else .ok (some v, [])
     | none => .ok (some v, []))
  | _ => .ok (none, [Diag.expectedTypeElem2 parent i (typeName child.type)])
termination_by (sizeOf v, 3, 0)
decreasing_by
  exact Prod.Lex.right _ (Prod.Lex.left _ _ (by omega))

end

/-! ## Engine entry point -/

/-- The configuration record handed to `processFpd`. -/
structure FpdConf where
  skipValidations : Bool

/-- The data record: a `global` tree and per-bidder trees. -/
structure FpdData where
  global : JVal
  bidder : List (String × JVal)

/-- The per-bidder map of `runValidations` (line 196):
`Object.entries(data.bidder).map(([bidder, conf]) => [bidder, validateFpd(conf)])`. -/
def bidderVals (tbl : SchemaTbl) (ou : Bool) :
    List (String × JVal) → Except Unit (List (String × JVal) × List Diag)
  | [] => .ok ([], [])
  | (b, conf) :: rest =>
    match validateFpd tbl ou conf [] "" with
    | .error e => .error e
    | .ok (v, ds) =>
      match bidderVals tbl ou rest with
      | .error e => .error e
      | .ok (r, ds') => .ok ((b, v) :: r, ds ++ ds')

/-- `runValidations` (lines 193-198). -/
def runValidations (tbl : SchemaTbl) (ou : Bool) (data : FpdData) :
    Except Unit (FpdData × List Diag) :=
  match validateFpd tbl ou data.global [] "" with
  | .error e => .error e
  | .ok (g, ds1) =>
    match bidderVals tbl ou data.bidder with
    | .error e => .error e
    | .ok (bl, ds2) => .ok (⟨g, bl⟩, ds1 ++ ds2)

/-- `processFpd` (lines 203-210).  The module-global `optout` is computed
from cookie/local storage before the run; that external read is modelled
by the boolean parameter `ou`.
`return (!fpdConf.skipValidations) ? runValidations(data) : data`. -/
def processFpd (tbl : SchemaTbl) (fpdConf : FpdConf) (ou : Bool)
    (data : FpdData) : Except Unit (FpdData × List Diag) :=
  if !fpdConf.skipValidations then runValidations tbl ou data
  else .ok (data, [])

/-! ## Spec-side definitions used to state the claims -/

/-- The Emptiness rule exactly as the specification words it: true when
the value is a structured value (object or array) with zero entries, or
when it is not numeric and falsy. -/
def isEmptyDataSpec (v : JVal) : Bool :=
  (match v with
   | .obj fs => fs.isEmpty
   | .arr xs => xs.isEmpty
   | _ => false) ||
  (!isNumber v && !jTruthy v)

/-- A required name passes on `v`: the property is truthy and non-empty
(this is the complement of `!obj[key] || isEmptyData(obj[key])`). -/
def reqOKB (v : JVal) (key : String) : Bool :=
  jTruthy (jGetD v key) && !isEmptyData (jGetD v key)

/-- Bump by one the index of the type-stage array diagnostics whose
`parent` label is the given one (used to relate the diagnostics of
`filterArrayData` on `bad :: xs` to those on `xs`). -/
def bumpAt (parent : String) : Diag → Diag
  | .expectedTypeElem p i t =>
      if p == parent then .expectedTypeElem p (i + 1) t
      else .expectedTypeElem p i t
  | d => d

/-- Every type-stage array diagnostic in the list has a parent label
extending `P` (possibly trivially). -/
abbrev elemExt (P : String) (ds : List Diag) : Prop :=
  ∀ p i t, Diag.expectedTypeElem p i t ∈ ds → ∃ s, p = P ++ s

/-- Every type-stage array diagnostic in the list has a parent label
strictly below `Q` (of the form `Q ++ "." ++ s`). -/
abbrev elemExtDot (Q : String) (ds : List Diag) : Prop :=
  ∀ p i t, Diag.expectedTypeElem p i t ∈ ds → ∃ s, p = Q ++ "." ++ s

mutual

/-- No field anywhere in the value (reached through object keys, with
array elements living at their array's schema path) has a descriptor
carrying `optoutApplies`. -/
def noOptoutB (tbl : SchemaTbl) (path : List String) : JVal → Bool
  | .obj fs => noOptoutFs tbl path fs
  | .arr xs => noOptoutXs tbl path xs
  | _ => true

def noOptoutFs (tbl : SchemaTbl) (path : List String) :
    List (String × JVal) → Bool
  | [] => true
  | (k, v) :: rest =>
      (match lookupPath tbl (path ++ [k]) with
       | some m => !m.optoutApplies
       | none => true) &&
      noOptoutB tbl (path ++ [k]) v && noOptoutFs tbl path rest

def noOptoutXs (tbl : SchemaTbl) (path : List String) : List JVal → Bool
  | [] => true
  | v :: rest => noOptoutB tbl path v && noOptoutXs tbl path rest

end

theorem children_sizeOf_lt (m : Mapping) : sizeOf (m.children.getD []) < sizeOf m := by
  obtain ⟨t, a, ct, ca, r, inv, o, ch⟩ := m
  cases ch with
  | none => simp [Mapping.children] <;> omega
  | some ch' => simp [Mapping.children] <;> omega

/-- Every descriptor in the schema tree (including nested `children`
descriptors) satisfies the predicate. -/
def allMaps (p : Mapping → Bool) : SchemaTbl → Bool
  | [] => true
  | (_, m) :: rest =>
      p m && allMaps p (m.children.getD []) && allMaps p rest
termination_by tbl => sizeOf tbl
decreasing_by
  · have := children_sizeOf_lt m
    simp <;> omega
  · simp <;> omega

/-- The specification's own schema invariant (§3): a descriptor with
`isArray` and `type='object'` must carry a `childType`. -/
def wfChildType (m : Mapping) : Bool :=
  !(m.isArray && m.type == some JType.object && m.childType == none)

/-- No descriptor asks for arrays of object-typed arrays with a nested
`children` schema (the combination on which a second run differs from the
first, because `validateFpd` rebuilds such an element as a plain object). -/
def wfNoArrayOfObjArrays (m : Mapping) : Bool :=
  !(m.childisArray && m.childType == some JType.object && m.children.isSome)

/-! ## Concrete schema tables and inputs used by counterexamples and
witnesses -/

/-- Scenario C schema: `"user"` declared `{type:'object', required:['id']}`. -/
def tblScenC : SchemaTbl :=
  [("user", .mk (some .object) false none false (some ["id"]) false false none)]

/-- Scenario C input: `{user: {id: "", name: "x"}}`. -/
def fpdScenC : JVal := .obj [("user", .obj [("id", .str ""), ("name", .str "x")])]

/-- A descriptor declaring `children` but no `required` list. -/
def tblNoReq : SchemaTbl :=
  [("p", .mk (some .object) true (some .object) false none false false (some []))]

/-- A descriptor with a `required` list, for the index-labelling check. -/
def tblIdx : SchemaTbl :=
  [("p", .mk (some .object) true (some .object) false (some ["a"]) false false none)]

/-- A descriptor with `isArray` and `children` but no `childType`, whose
`children` carry an `optoutApplies` field. -/
def tblOpt : SchemaTbl :=
  [("a", .mk (some .object) true none false none false false
      (some [("b", .mk none false none false none false true none)]))]

/-- Input whose array passes through verbatim under `tblOpt`. -/
def fpdOpt : JVal := .obj [("a", .arr [.obj [("b", .num (.int 1))]])]

/-- Arrays of object-typed arrays with a nested `children` schema. -/
def tblAA : SchemaTbl :=
  [("a", .mk (some .object) true (some .object) true (some ["0"]) false false
      (some [("0", .mk (some .string) false none false none false false none)]))]

/-- Input: `{a: [["x"]]}`. -/
def fpdAA : JVal := .obj [("a", .arr [.arr [.str "x"]])]

/-- First-run output on `fpdAA`: the inner array was rebuilt as an object. -/
def outAA : JVal := .obj [("a", .arr [.obj [("0", .str "x")]])]

/-- A one-entry schema used by witnesses: an object-element array whose
descriptor requires `"id"`. -/
def tblWit : SchemaTbl :=
  [("w", .mk (some .object) true (some .object) false (some ["id"]) false false none)]

/-- A plain scalar descriptor, for the idempotence witness. -/
def mC8 : Mapping := .mk (some JType.number) false none false none false false none

/-- Schema table of the idempotence witness. -/
def tblC8 : SchemaTbl := [("a", mC8)]

/-- Input of the idempotence witness. -/
def fpdC8 : JVal := .obj [("a", .num (.int 1))]

/-! ## Helper lemmas -/

theorem lookupPath_nil (p : List String) : lookupPath [] p = none := by
  cases p with
  | nil => rfl
  | cons k rest => simp [lookupPath, List.lookup]

/-- `getRequiredData` on a plain object never throws and computes exactly
the conjunction of per-key passes plus one warning per failing key. -/
theorem getRequiredData_obj_spec (fs : List (String × JVal)) (req : List String)
    (parent : String) (i : Nat) :
    getRequiredData (.obj fs) (some req) parent i =
      .ok (req.all (reqOKB (.obj fs)),
           (req.filter (fun k => !reqOKB (.obj fs) k)).map (Diag.missingReq parent i)) := by
  show getRequiredData.reqFold (.obj fs) parent i req = _
  induction req with
  | nil => rfl
  | cons key rest ih =>
    simp only [getRequiredData.reqFold, jGet, ih]
    simp only [reqOKB, List.all_cons, List.filter_cons]
    cases ht : jTruthy (jGetD (.obj fs) key) <;>
      cases he : isEmptyData (jGetD (.obj fs) key) <;> simp [List.map_cons]

/-! ## Claim C10 -/

/-- C10: when the configuration has `skipValidations` set, `processFpd`
returns the input data unchanged, with no traversal and no diagnostics. -/
theorem C10_skip_returns_input (tbl : SchemaTbl) (ou : Bool) (data : FpdData) :
    processFpd tbl ⟨true⟩ ou data = .ok (data, []) := rfl

/-! ## Claim C9 -/

/-- C9: `isEmptyData x` is true exactly when `x` is a structured value
(object or array) with zero entries, or `x` is not numeric and falsy;
numbers (finite or not, including zero) and truthy scalars are never
empty. -/
theorem C9_isEmptyData_spec (v : JVal) : isEmptyData v = isEmptyDataSpec v := by
  cases v with
  | num n => cases n <;> rfl
  | obj fs =>
      cases fs <;>
        simp [isEmptyData, isEmptyDataSpec, jTypeof, isEmpty, isNumber, jTruthy]
  | arr xs =>
      cases xs <;>
        simp [isEmptyData, isEmptyDataSpec, jTypeof, isEmpty, isNumber, jTruthy]
  | str s =>
      simp [isEmptyData, isEmptyDataSpec, jTypeof, isEmpty, isNumber, jTruthy]
  | bool b => cases b <;> rfl
  | jnull => rfl
  | undef => rfl

/-! ## Claim C4 -/

/-- C4 counterexample: the claim says `TypeCheck(null, {type:'object',
isArray:false})` returns false, but `typeof null === 'object'`, so the
source returns true. -/
theorem C4_counterexample : typeValidation .jnull ⟨some .object, false⟩ = true := rfl

/-- C4 (amended): for `type='object'`, `typeValidation` returns true iff
`typeof v === 'object'` — which holds for `null`, plain objects and
arrays — and the value's array-ness equals the descriptor's `isArray`;
in particular `null` with `isArray=false` passes. -/
theorem C4_object_typecheck (v : JVal) (ary : Bool) :
    typeValidation v ⟨some .object, ary⟩ =
      ((jTypeof v == "object") && (jIsArray v == ary)) := by
  cases v <;> simp [typeValidation, jTypeof, jIsArray]

/-! ## Claim C2 -/

/-- C2 counterexample: for `obj[name] = 0` and required list `[name]`,
the claim says `getRequiredData` returns true (numeric zero counts as
present under the Emptiness rule), but the guard `!obj[key]` rejects any
falsy value, so the source returns false and logs a warning. -/
theorem C2_counterexample :
    getRequiredData (.obj [("k", .num (.int 0))]) (some ["k"]) "p" 0 =
      .ok (false, [.missingReq "p" 0 "k"]) := rfl

/-- C2 (amended): on a plain object, `getRequiredData` returns false
exactly when some required name's value is falsy (`!obj[key]` — this
includes numeric zero, the empty string, `false` and `NaN`) or empty per
the Emptiness rule; it does not short-circuit, emitting one diagnostic
per failing name in order, and returns true only when every name's value
is truthy and non-empty. -/
theorem C2_required_check (fs : List (String × JVal)) (req : List String)
    (parent : String) (i : Nat) :
    getRequiredData (.obj fs) (some req) parent i =
      .ok (req.all (reqOKB (.obj fs)),
           (req.filter (fun k => !reqOKB (.obj fs) k)).map (Diag.missingReq parent i)) :=
  getRequiredData_obj_spec fs req parent i

/-! ## Claim C3: the failing evaluation -/

set_option maxRecDepth 100000 in
set_option maxHeartbeats 1000000 in
unseal validateFpd vfReduce reduceKey modStep filterArrayData faReduce faStep in
/-- C3: the source is not exception-free — with a descriptor declaring
`children` but no `required` list, the shape-stage re-check calls
`getRequiredData(validObject, undefined, …)` and `required.forEach`
throws a `TypeError`.  Concretely, filtering `[{a: 1}]` under such a
descriptor throws. -/
theorem C3_required_recheck_throws :
    filterArrayData tblNoReq false [.obj [("a", .num (.int 1))]]
      ⟨some .object, false⟩ ["p"] "p" = .error () := rfl

/-! ## Claim C6: counterexample -/

set_option maxRecDepth 100000 in
set_option maxHeartbeats 1000000 in
unseal validateFpd vfReduce reduceKey modStep filterArrayData faReduce faStep in
/-- C6 counterexample: in `[5, {a: ""}]` the element `{a: ""}` sits at
original index 1, but after the type stage drops `5`, the required stage
reports the missing `a` at index 0 — the position among the previous
stage's survivors, not the original index the claim requires. -/
theorem C6_counterexample :
    filterArrayData tblIdx false [.num (.int 5), .obj [("a", .str "")]]
      ⟨some .object, false⟩ ["p"] "p" =
      .ok ([], [.expectedTypeElem "p" 0 "object", .missingReq "p" 0 "a"]) := rfl

/-! ## Claim C7: counterexample -/

set_option maxRecDepth 100000 in
set_option maxHeartbeats 1000000 in
unseal validateFpd vfReduce reduceKey modStep filterArrayData faReduce faStep in
/-- C7 counterexample: with the redaction flag active, a descriptor with
`isArray` and `children` but no `childType` passes its array through
verbatim, so the nested field `b` — whose descriptor at `a.children.b`
carries `optoutApplies` — survives in the output. -/
theorem C7_counterexample :
    validateFpd tblOpt true fpdOpt [] "" = .ok (fpdOpt, []) ∧
    noOptoutB tblOpt [] fpdOpt = false := ⟨rfl, rfl⟩

/-! ## Claim C8: counterexample -/

set_option maxRecDepth 100000 in
set_option maxHeartbeats 1000000 in
unseal validateFpd vfReduce reduceKey modStep filterArrayData faReduce faStep in
/-- C8 counterexample: under a descriptor combining `childType='object'`,
`childisArray` and `children`, the first run rebuilds the inner array
`["x"]` as the object `{0: "x"}`; the second run's type stage then drops
that object (it is not an array), so `a` comes back empty and is removed:
the first output is not a fixed point. -/
theorem C8_counterexample :
    validateFpd tblAA false fpdAA [] "" = .ok (outAA, []) ∧
    validateFpd tblAA false outAA [] "" =
      .ok (.obj [], [.expectedTypeElem "a" 0 "object", .emptyData "a"]) ∧
    outAA ≠ JVal.obj [] := by
  refine ⟨rfl, rfl, ?_⟩
  simp [outAA]

/-! ## Inversion lemmas for the recursive core -/

theorem jGet_eq_ok {v : JVal} (h1 : v ≠ .jnull) (h2 : v ≠ .undef) (k : String) :
    jGet v k = .ok (jGetD v k) := by
  cases v <;> first | rfl | exact absurd rfl h1 | exact absurd rfl h2

theorem jGet_ok_eq {v u : JVal} {k : String} (h : jGet v k = .ok u) :
    u = jGetD v k := by
  cases v <;> simp [jGet] at h <;> exact h.symm

theorem vfReduce_nil (tbl : SchemaTbl) (ou : Bool) (fpd : JVal)
    (path : List String) (P : String) (acc : List (String × JVal)) :
    vfReduce tbl ou fpd path P acc [] = .ok (acc, []) := by
  rw [vfReduce]

theorem vfReduce_cons (tbl : SchemaTbl) (ou : Bool) (fpd : JVal)
    (path : List String) (P : String) (acc : List (String × JVal))
    (k : String) (ks : List String) :
    vfReduce tbl ou fpd path P acc (k :: ks) =
      match reduceKey tbl ou fpd path P k with
      | .error e => .error e
      | .ok (o, dk) =>
        match vfReduce tbl ou fpd path P
                (match o with | some v => objSet acc k v | none => acc) ks with
        | .error e => .error e
        | .ok (fs, ds) => .ok (fs, dk ++ ds) := by
  rw [vfReduce]

theorem vfReduce_cons_ok {tbl : SchemaTbl} {ou : Bool} {fpd : JVal}
    {path : List String} {P : String} {acc : List (String × JVal)}
    {k : String} {ks : List String} {fsr : List (String × JVal)} {ds : List Diag}
    (h : vfReduce tbl ou fpd path P acc (k :: ks) = .ok (fsr, ds)) :
    ∃ o dk ds',
      reduceKey tbl ou fpd path P k = .ok (o, dk) ∧
      vfReduce tbl ou fpd path P
        (match o with | some v => objSet acc k v | none => acc) ks = .ok (fsr, ds') ∧
      ds = dk ++ ds' := by
  rw [vfReduce] at h
  split at h
  · exact absurd h (by simp)
  · rename_i o dk hrk
    split at h
    · exact absurd h (by simp)
    · rename_i fs2 ds2 hvf
      simp only [Except.ok.injEq, Prod.mk.injEq] at h
      exact ⟨o, dk, ds2, hrk, by rw [hvf, h.1], h.2.symm⟩

theorem validateFpd_falsy {tbl : SchemaTbl} {ou : Bool} {fpd : JVal}
    {path : List String} {P : String} (h : jTruthy fpd = false) :
    validateFpd tbl ou fpd path P = .ok (.obj [], []) := by
  rw [validateFpd, if_pos h]

theorem validateFpd_truthy {tbl : SchemaTbl} {ou : Bool} {fpd : JVal}
    {path : List String} {P : String} (h : jTruthy fpd = true) :
    validateFpd tbl ou fpd path P =
      match vfReduce tbl ou fpd path P []
              (pass2 tbl fpd path P (pass1 tbl path P (jKeys fpd)).1).1 with
      | .error e => .error e
      | .ok (fields, d3) =>
          .ok (.obj fields,
            (pass1 tbl path P (jKeys fpd)).2 ++
            (pass2 tbl fpd path P (pass1 tbl path P (jKeys fpd)).1).2 ++ d3) := by
  rw [validateFpd, if_neg (by simp [h])]

theorem validateFpd_ok_inv {tbl : SchemaTbl} {ou : Bool} {fpd : JVal}
    {path : List String} {P : String} {w : JVal} {ds : List Diag}
    (h : validateFpd tbl ou fpd path P = .ok (w, ds)) :
    (jTruthy fpd = false ∧ w = .obj [] ∧ ds = []) ∨
    (jTruthy fpd = true ∧ ∃ fields d3,
       vfReduce tbl ou fpd path P []
         (pass2 tbl fpd path P (pass1 tbl path P (jKeys fpd)).1).1 = .ok (fields, d3) ∧
       w = .obj fields ∧
       ds = (pass1 tbl path P (jKeys fpd)).2 ++
            (pass2 tbl fpd path P (pass1 tbl path P (jKeys fpd)).1).2 ++ d3) := by
  cases ht : jTruthy fpd with
  | false =>
    left
    have : validateFpd tbl ou fpd path P = .ok (.obj [], []) := validateFpd_falsy ht
    rw [this] at h
    simp only [Except.ok.injEq, Prod.mk.injEq] at h
    exact ⟨rfl, h.1.symm, h.2.symm⟩
  | true =>
    right
    refine ⟨rfl, ?_⟩
    rw [validateFpd_truthy ht] at h
    split at h
    · exact absurd h (by simp)
    · rename_i fields d3 hvf
      simp only [Except.ok.injEq, Prod.mk.injEq] at h
      exact ⟨fields, d3, hvf, h.1.symm, h.2.symm⟩

theorem validateFpd_ok_obj {tbl : SchemaTbl} {ou : Bool} {fpd : JVal}
    {path : List String} {P : String} {w : JVal} {ds : List Diag}
    (h : validateFpd tbl ou fpd path P = .ok (w, ds)) :
    ∃ fields, w = .obj fields := by
  rcases validateFpd_ok_inv h with ⟨_, hw, _⟩ | ⟨_, fields, _, _, hw, _⟩
  · exact ⟨[], hw⟩
  · exact ⟨fields, hw⟩

theorem filterArrayData_eq (tbl : SchemaTbl) (ou : Bool) (xs : List JVal)
    (c : TypeDesc) (path : List String) (Q : String) :
    filterArrayData tbl ou xs c path Q =
      match stage2 tbl path Q 0 (stage1 c Q 0 xs).1 with
      | .error e => .error e
      | .ok (s2, d2) =>
        match faReduce tbl ou c path Q 0 s2 with
        | .error e => .error e
        | .ok (r, d3) => .ok (r, (stage1 c Q 0 xs).2 ++ d2 ++ d3) := by
  rw [filterArrayData]
  split <;> (rename_i h; rw [h])

theorem filterArrayData_ok_inv {tbl : SchemaTbl} {ou : Bool} {xs : List JVal}
    {c : TypeDesc} {path : List String} {Q : String} {r : List JVal} {ds : List Diag}
    (h : filterArrayData tbl ou xs c path Q = .ok (r, ds)) :
    ∃ s2 d2 d3,
      stage2 tbl path Q 0 (stage1 c Q 0 xs).1 = .ok (s2, d2) ∧
      faReduce tbl ou c path Q 0 s2 = .ok (r, d3) ∧
      ds = (stage1 c Q 0 xs).2 ++ d2 ++ d3 := by
  rw [filterArrayData_eq] at h
  split at h
  · exact absurd h (by simp)
  · rename_i s2 d2 h2
    split at h
    · exact absurd h (by simp)
    · rename_i r' d3 h3
      simp only [Except.ok.injEq, Prod.mk.injEq] at h
      exact ⟨s2, d2, d3, h2, h.1 ▸ h3, h.2.symm⟩

theorem faReduce_nil (tbl : SchemaTbl) (ou : Bool) (c : TypeDesc)
    (path : List String) (Q : String) (i : Nat) :
    faReduce tbl ou c path Q i [] = .ok ([], []) := by
  rw [faReduce]

theorem faReduce_cons (tbl : SchemaTbl) (ou : Bool) (c : TypeDesc)
    (path : List String) (Q : String) (i : Nat) (v : JVal) (rest : List JVal) :
    faReduce tbl ou c path Q i (v :: rest) =
      match faStep tbl ou c path Q i v with
      | .error e => .error e
      | .ok (o, dv) =>
        match faReduce tbl ou c path Q (i + 1) rest with
        | .error e => .error e
        | .ok (r, ds) =>
          .ok ((match o with | some w => w :: r | none => r), dv ++ ds) := by
  rw [faReduce]

theorem faReduce_cons_ok {tbl : SchemaTbl} {ou : Bool} {c : TypeDesc}
    {path : List String} {Q : String} {i : Nat} {v : JVal} {rest : List JVal}
    {r : List JVal} {ds : List Diag}
    (h : faReduce tbl ou c path Q i (v :: rest) = .ok (r, ds)) :
    ∃ o dv r' ds',
      faStep tbl ou c path Q i v = .ok (o, dv) ∧
      faReduce tbl ou c path Q (i + 1) rest = .ok (r', ds') ∧
      r = (match o with | some w => w :: r' | none => r') ∧
      ds = dv ++ ds' := by
  rw [faReduce_cons] at h
  split at h
  · exact absurd h (by simp)
  · rename_i o dv hfs
    split at h
    · exact absurd h (by simp)
    · rename_i r' ds' hfa
      simp only [Except.ok.injEq, Prod.mk.injEq] at h
      exact ⟨o, dv, r', ds', hfs, hfa, h.1.symm, h.2.symm⟩

/-! ## Stage and required-check lemmas -/

theorem stage1_mem {c : TypeDesc} {Q : String} {i : Nat} {xs : List JVal} :
    ∀ v ∈ (stage1 c Q i xs).1, v ∈ xs ∧
      (typeValidation v ⟨c.type, c.isArray⟩ && (jIsArray v == c.isArray)) = true := by
  induction xs generalizing i with
  | nil => simp [stage1]
  | cons x rest ih =>
    intro v hv
    simp only [stage1] at hv
    split at hv
    · rename_i hk
      rcases List.mem_cons.1 hv with rfl | hv'
      · exact ⟨List.mem_cons_self _ _, hk⟩
      · obtain ⟨h1, h2⟩ := ih (i := i + 1) v hv'
        exact ⟨List.mem_cons_of_mem _ h1, h2⟩
    · obtain ⟨h1, h2⟩ := ih (i := i + 1) v hv
      exact ⟨List.mem_cons_of_mem _ h1, h2⟩

theorem reqFold_ok_of_nonNullish {v : JVal} (h1 : v ≠ .jnull) (h2 : v ≠ .undef)
    (p : String) (i : Nat) (req : List String) :
    ∃ b ds, getRequiredData.reqFold v p i req = .ok (b, ds) := by
  induction req with
  | nil => exact ⟨true, [], rfl⟩
  | cons key rest ih =>
    obtain ⟨b, ds, hb⟩ := ih
    simp only [getRequiredData.reqFold, jGet_eq_ok h1 h2, hb]
    split
    · exact ⟨false, _, rfl⟩
    · exact ⟨b, ds, rfl⟩

theorem reqFold_true_inv {v : JVal} {p : String} {i : Nat} {req : List String}
    {ds : List Diag} (h : getRequiredData.reqFold v p i req = .ok (true, ds)) :
    ds = [] ∧ ∀ r ∈ req, reqOKB v r = true := by
  induction req generalizing ds with
  | nil =>
    simp only [getRequiredData.reqFold, Except.ok.injEq, Prod.mk.injEq] at h
    simp [h.2.symm]
  | cons key rest ih =>
    simp only [getRequiredData.reqFold] at h
    split at h
    · exact absurd h (by simp)
    · rename_i u hu
      split at h
      · exact absurd h (by simp)
      · rename_i c ds' hrest
        split at h
        · simp only [Except.ok.injEq, Prod.mk.injEq] at h
          exact absurd h.1 (by simp)
        · rename_i hfail
          simp only [Except.ok.injEq, Prod.mk.injEq] at h
          obtain ⟨hc, hds⟩ := h
          subst hc
          subst hds
          obtain ⟨hnil, hall⟩ := ih hrest
          refine ⟨hnil, ?_⟩
          intro r hr
          rcases List.mem_cons.1 hr with rfl | hr'
          · have := jGet_ok_eq hu
            subst this
            simp only [reqOKB]
            revert hfail
            cases jTruthy (jGetD v r) <;> cases isEmptyData (jGetD v r) <;> simp
          · exact hall r hr'

theorem reqFold_relabel {v : JVal} {p q : String} {i j : Nat} {req : List String}
    {b : Bool} {ds : List Diag}
    (h : getRequiredData.reqFold v p i req = .ok (b, ds)) :
    ∃ ds', getRequiredData.reqFold v q j req = .ok (b, ds') := by
  induction req generalizing b ds with
  | nil =>
    simp only [getRequiredData.reqFold, Except.ok.injEq, Prod.mk.injEq] at h
    exact ⟨[], by simp [getRequiredData.reqFold, h.1.symm]⟩
  | cons key rest ih =>
    simp only [getRequiredData.reqFold] at h ⊢
    split at h
    · exact absurd h (by simp)
    · rename_i u hu
      split at h
      · exact absurd h (by simp)
      · rename_i c ds' hrest
        obtain ⟨ds2, hds2⟩ := ih hrest
        simp only [hds2]
        split at h <;>
          (simp only [Except.ok.injEq, Prod.mk.injEq] at h; rename_i hcond)
        · rw [if_pos hcond]
          exact ⟨_, by rw [← h.1]⟩
        · rw [if_neg hcond]
          exact ⟨ds2, by rw [← h.1]⟩

theorem getRequiredData_true_inv {v : JVal} {p : String} {i : Nat}
    {req : List String} {ds : List Diag}
    (h : getRequiredData v (some req) p i = .ok (true, ds)) :
    ds = [] ∧ ∀ r ∈ req, reqOKB v r = true :=
  reqFold_true_inv h

theorem getRequiredData_relabel {v : JVal} {p q : String} {i j : Nat}
    {req : List String} {b : Bool} {ds : List Diag}
    (h : getRequiredData v (some req) p i = .ok (b, ds)) :
    ∃ ds', getRequiredData v (some req) q j = .ok (b, ds') :=
  reqFold_relabel h

theorem stage2_mem {tbl : SchemaTbl} {path : List String} {Q : String}
    {i : Nat} {l r : List JVal} {ds : List Diag}
    (h : stage2 tbl path Q i l = .ok (r, ds)) :
    ∀ v ∈ r, v ∈ l ∧
      (∀ m, lookupPath tbl path = some m → m.required.isSome = true →
        ∃ j ds', getRequiredData v m.required Q j = .ok (true, ds')) := by
  induction l generalizing i r ds with
  | nil =>
    simp only [stage2, Except.ok.injEq, Prod.mk.injEq] at h
    simp [← h.1]
  | cons x rest ih =>
    simp only [stage2] at h
    split at h
    · exact absurd h (by simp)
    · rename_i rc ds0 heq
      split at h
      · exact absurd h (by simp)
      · rename_i r' ds' heq'
        simp only [Except.ok.injEq, Prod.mk.injEq] at h
        obtain ⟨hr, _⟩ := h
        intro v hv
        rw [← hr] at hv
        by_cases hrc : rc = true
        · rw [if_pos hrc] at hv
          rcases List.mem_cons.1 hv with rfl | hv'
          · refine ⟨List.mem_cons_self _ _, ?_⟩
            intro m hm hreq
            rw [hm] at heq
            dsimp only at heq
            rw [if_pos hreq] at heq
            subst hrc
            exact ⟨i, ds0, heq⟩
          · obtain ⟨h1, h2⟩ := ih heq' v hv'
            exact ⟨List.mem_cons_of_mem _ h1, h2⟩
        · rw [if_neg hrc] at hv
          obtain ⟨h1, h2⟩ := ih heq' v hv
          exact ⟨List.mem_cons_of_mem _ h1, h2⟩

theorem stage2_ok_of_nonNullish {tbl : SchemaTbl} {path : List String}
    {Q : String} {l : List JVal}
    (hl : ∀ v ∈ l, v ≠ .jnull ∧ v ≠ .undef) (i : Nat) :
    ∃ r ds, stage2 tbl path Q i l = .ok (r, ds) := by
  induction l generalizing i with
  | nil => exact ⟨[], [], rfl⟩
  | cons x rest ih =>
    obtain ⟨r, ds, hr⟩ := ih (fun v hv => hl v (List.mem_cons_of_mem _ hv)) (i := i + 1)
    obtain ⟨hx1, hx2⟩ := hl x (List.mem_cons_self _ _)
    simp only [stage2]
    cases hlk : lookupPath tbl path with
    | none =>
      dsimp only
      rw [hr]
      exact ⟨_, _, rfl⟩
    | some m =>
      dsimp only
      by_cases hrq : m.required.isSome = true
      · rw [if_pos hrq]
        obtain ⟨req, hreq⟩ := Option.isSome_iff_exists.1 hrq
        rw [hreq]
        obtain ⟨b, ds0, hb⟩ := reqFold_ok_of_nonNullish hx1 hx2 Q i req
        have hgr : getRequiredData x (some req) Q i = .ok (b, ds0) := hb
        rw [hgr]
        dsimp only
        rw [hr]
        exact ⟨_, _, rfl⟩
      · rw [if_neg hrq]
        dsimp only
        rw [hr]
        exact ⟨_, _, rfl⟩

/-! ## `faStep` branch lemmas and `faReduce` membership -/

theorem faStep_string {tbl : SchemaTbl} {ou : Bool} {c : TypeDesc}
    {path : List String} {Q : String} {i : Nat} {v : JVal}
    (h : c.type = some JType.string) :
    faStep tbl ou c path Q i v = .ok (some v, []) := by
  rw [faStep, h]

theorem faStep_number_or_none {tbl : SchemaTbl} {ou : Bool} {c : TypeDesc}
    {path : List String} {Q : String} {i : Nat} {v : JVal}
    (h1 : c.type ≠ some JType.string) (h2 : c.type ≠ some JType.object) :
    faStep tbl ou c path Q i v =
      .ok (none, [.expectedTypeElem2 Q i (typeName c.type)]) := by
  cases hct : c.type with
  | none => rw [faStep, hct]
  | some t =>
    cases t with
    | string => exact absurd hct h1
    | object => exact absurd hct h2
    | number => rw [faStep, hct]

theorem faStep_object_nomap {tbl : SchemaTbl} {ou : Bool} {c : TypeDesc}
    {path : List String} {Q : String} {i : Nat} {v : JVal}
    (hc : c.type = some JType.object) (hm : lookupPath tbl path = none) :
    faStep tbl ou c path Q i v = .ok (some v, []) := by
  rw [faStep, hc, hm]

theorem faStep_object_nochildren {tbl : SchemaTbl} {ou : Bool} {c : TypeDesc}
    {path : List String} {Q : String} {i : Nat} {v : JVal} {m : Mapping}
    (hc : c.type = some JType.object) (hm : lookupPath tbl path = some m)
    (hch : m.children.isSome = false) :
    faStep tbl ou c path Q i v = .ok (some v, []) := by
  rw [faStep, hc, hm]
  dsimp only
  rw [if_neg (by simp [hch])]

theorem faStep_object_children {tbl : SchemaTbl} {ou : Bool} {c : TypeDesc}
    {path : List String} {Q : String} {i : Nat} {v : JVal} {m : Mapping}
    (hc : c.type = some JType.object) (hm : lookupPath tbl path = some m)
    (hch : m.children.isSome = true) :
    faStep tbl ou c path Q i v =
      match validateFpd tbl ou v path (Q ++ ".") with
      | .error e => .error e
      | .ok (w, dw) =>
        if (jKeys w).length ≠ 0 then
          match getRequiredData w m.required Q i with
          | .error e => .error e
          | .ok (rc, dr) =>
            if rc then .ok (some w, dw ++ dr)
            else .ok (none, dw ++ dr ++ [.expectedTypeElem2 Q i (typeName c.type)])
        else .ok (none, dw ++ [.expectedTypeElem2 Q i (typeName c.type)]) := by
  rw [faStep, hc, hm]
  dsimp only
  rw [if_pos hch]

theorem faStep_some_inv {tbl : SchemaTbl} {ou : Bool} {c : TypeDesc}
    {path : List String} {Q : String} {i : Nat} {v w : JVal} {dv : List Diag}
    (h : faStep tbl ou c path Q i v = .ok (some w, dv)) :
    w = v ∨
    (∃ m dw dr, lookupPath tbl path = some m ∧
      validateFpd tbl ou v path (Q ++ ".") = .ok (w, dw) ∧
      getRequiredData w m.required Q i = .ok (true, dr) ∧ dv = dw ++ dr) := by
  rw [faStep] at h
  split at h
  · -- string
    simp only [Except.ok.injEq, Prod.mk.injEq, Option.some.injEq] at h
    exact Or.inl h.1.symm
  · -- object
    split at h
    · rename_i m hm
      split at h
      · rename_i hch
        split at h
        · exact absurd h (by simp)
        · rename_i w' dw hvf
          split at h
          · rename_i hkeys
            split at h
            · exact absurd h (by simp)
            · rename_i rc dr hgr
              split at h
              · rename_i hrc
                simp only [Except.ok.injEq, Prod.mk.injEq, Option.some.injEq] at h
                refine Or.inr ⟨m, dw, dr, hm, ?_, ?_, h.2.symm⟩
                · rw [h.1] at hvf; exact hvf
                · rw [h.1, hrc] at hgr; exact hgr
              · exact absurd h (by simp)
          · exact absurd h (by simp)
      · simp only [Except.ok.injEq, Prod.mk.injEq, Option.some.injEq] at h
        exact Or.inl h.1.symm
    · simp only [Except.ok.injEq, Prod.mk.injEq, Option.some.injEq] at h
      exact Or.inl h.1.symm
  · exact absurd h (by simp)

theorem faReduce_mem {tbl : SchemaTbl} {ou : Bool} {c : TypeDesc}
    {path : List String} {Q : String} {i : Nat} {l res : List JVal} {ds : List Diag}
    (h : faReduce tbl ou c path Q i l = .ok (res, ds)) :
    ∀ w ∈ res, ∃ j v dv, v ∈ l ∧ faStep tbl ou c path Q j v = .ok (some w, dv) := by
  induction l generalizing i res ds with
  | nil =>
    rw [faReduce_nil] at h
    simp only [Except.ok.injEq, Prod.mk.injEq] at h
    intro w hw
    rw [← h.1] at hw
    exact absurd hw (List.not_mem_nil w)
  | cons v rest ih =>
    obtain ⟨o, dv, r', ds', hstep, hrest, hr, -⟩ := faReduce_cons_ok h
    intro w hw
    subst hr
    cases o with
    | some w0 =>
      rcases List.mem_cons.1 hw with rfl | hw'
      · exact ⟨i, v, dv, List.mem_cons_self _ _, hstep⟩
      · obtain ⟨j, v', dv', hv', hs'⟩ := ih hrest w hw'
        exact ⟨j, v', dv', List.mem_cons_of_mem _ hv', hs'⟩
    | none =>
      obtain ⟨j, v', dv', hv', hs'⟩ := ih hrest w hw
      exact ⟨j, v', dv', List.mem_cons_of_mem _ hv', hs'⟩

/-! ## Claim C5 -/

theorem typeValidation_number_inv {v : JVal} {a : Bool}
    (h : typeValidation v ⟨some JType.number, a⟩ = true) :
    ∃ n : Int, v = .num (.int n) := by
  cases v with
  | num n => cases n with
    | int n => exact ⟨n, rfl⟩
    | nan => simp [typeValidation, jFinite] at h
    | inf => simp [typeValidation, jFinite] at h
    | neginf => simp [typeValidation, jFinite] at h
  | jnull => simp [typeValidation] at h
  | undef => simp [typeValidation] at h
  | bool b => simp [typeValidation] at h
  | str s => simp [typeValidation] at h
  | arr xs => simp [typeValidation] at h
  | obj fs => simp [typeValidation] at h

theorem faReduce_number {tbl : SchemaTbl} {ou : Bool} {c : TypeDesc}
    {path : List String} {Q : String} (hc : c.type = some JType.number) :
    ∀ (i : Nat) (l : List JVal), ∃ ds, faReduce tbl ou c path Q i l = .ok ([], ds) := by
  intro i l
  induction l generalizing i with
  | nil => exact ⟨[], faReduce_nil _ _ _ _ _ _⟩
  | cons v rest ih =>
    obtain ⟨ds, hds⟩ := ih (i := i + 1)
    rw [faReduce_cons,
        faStep_number_or_none (by simp [hc]) (by simp [hc]), hds]
    exact ⟨_, rfl⟩

/-- C5: for every input array, an element descriptor with
`childType='number'` yields the empty array — finite numbers survive the
type stage but no `switch` case handles `'number'` in the shape reduce,
so every survivor is dropped there with an expected-type diagnostic (the
second conjunct shows the diagnostic on a one-element array under an
empty schema). -/
theorem C5_number_child_empty :
    (∀ (tbl : SchemaTbl) (ou ca : Bool) (xs : List JVal)
       (path : List String) (Q : String),
       ∃ ds, filterArrayData tbl ou xs ⟨some JType.number, ca⟩ path Q = .ok ([], ds)) ∧
    (∀ (n : Int) (ou : Bool) (path : List String) (Q : String),
       filterArrayData [] ou [.num (.int n)] ⟨some JType.number, false⟩ path Q =
         .ok ([], [.expectedTypeElem2 Q 0 "number"])) := by
  constructor
  · intro tbl ou ca xs path Q
    have hshape : ∀ v ∈ (stage1 ⟨some JType.number, ca⟩ Q 0 xs).1,
        v ≠ .jnull ∧ v ≠ .undef := by
      intro v hv
      obtain ⟨-, hty⟩ := stage1_mem v hv
      obtain ⟨n, rfl⟩ := typeValidation_number_inv (Bool.and_elim_left hty)
      simp
    obtain ⟨s2, d2, h2⟩ : ∃ r ds,
        stage2 tbl path Q 0 (stage1 ⟨some JType.number, ca⟩ Q 0 xs).1 =
          .ok (r, ds) :=
      stage2_ok_of_nonNullish hshape 0
    obtain ⟨d3, h3⟩ : ∃ ds,
        faReduce tbl ou ⟨some JType.number, ca⟩ path Q 0 s2 = .ok ([], ds) :=
      faReduce_number rfl 0 s2
    rw [filterArrayData_eq, h2]
    dsimp only
    rw [h3]
    exact ⟨_, rfl⟩
  · intro n ou path Q
    have h1 : stage1 ⟨some JType.number, false⟩ Q 0 [.num (.int n)] =
        ([.num (.int n)], []) := by
      simp [stage1, typeValidation, jFinite, jIsArray]
    have h2 : stage2 [] path Q 0 [.num (.int n)] = .ok ([.num (.int n)], []) := by
      simp [stage2, lookupPath_nil]
    have h3 : faReduce [] ou ⟨some JType.number, false⟩ path Q 0 [.num (.int n)] =
        .ok ([], [.expectedTypeElem2 Q 0 "number"]) := by
      rw [faReduce_cons, faStep_number_or_none (by simp) (by simp), faReduce_nil]
      rfl
    rw [filterArrayData_eq, h1, h2]
    dsimp only
    rw [h3]
    rfl

/-! ## Claim C1 (amended) -/

/-- C1 (amended): required lists are enforced only for array elements.
`validateFpd` never consults `required` on a plain-object descriptor
(see `C1_counterexample` for Scenario C), but every object element that
survives `filterArrayData` under a descriptor declaring
`required=[r1,…]` — whether passed verbatim (checked by the required
stage) or rebuilt by recursion (re-checked after recursion) — has a
truthy, non-empty value at every required name. -/
theorem C1_required_only_on_array_elements
    (tbl : SchemaTbl) (ou ca : Bool) (xs : List JVal) (path : List String)
    (Q : String) (m : Mapping) (req : List String) (out : List JVal) (ds : List Diag)
    (hm : lookupPath tbl path = some m) (hreq : m.required = some req)
    (h : filterArrayData tbl ou xs ⟨some JType.object, ca⟩ path Q = .ok (out, ds)) :
    ∀ v ∈ out, ∀ r ∈ req, reqOKB v r = true := by
  obtain ⟨s2, d2, d3, h2, h3, -⟩ := filterArrayData_ok_inv h
  intro w hw r hr
  obtain ⟨j, v, dv, hv, hstep⟩ := faReduce_mem h3 w hw
  rcases faStep_some_inv hstep with rfl | ⟨m', dw, dr, hm', hvf, hgr, -⟩
  · obtain ⟨-, hreqok⟩ := stage2_mem h2 w hv
    obtain ⟨j', ds', hok⟩ := hreqok m hm (by simp [hreq])
    rw [hreq] at hok
    exact (getRequiredData_true_inv hok).2 r hr
  · rw [hm] at hm'
    cases hm'
    rw [hreq] at hgr
    exact (getRequiredData_true_inv hgr).2 r hr

set_option maxRecDepth 100000 in
set_option maxHeartbeats 1000000 in
unseal validateFpd vfReduce reduceKey modStep filterArrayData faReduce faStep in
/-- Witness for C1: a concrete array run in which the surviving element
satisfies its required list. -/
theorem C1_witness :
    filterArrayData tblWit false [.obj [("id", .str "v")]]
      ⟨some JType.object, false⟩ ["w"] "w" =
      .ok ([.obj [("id", .str "v")]], []) ∧
    reqOKB (.obj [("id", .str "v")]) "id" = true := by
  refine ⟨rfl, ?_⟩
  exact C1_required_only_on_array_elements tblWit false false
    [.obj [("id", .str "v")]] ["w"] "w"
    (.mk (some .object) true (some .object) false (some ["id"]) false false none)
    ["id"] [.obj [("id", .str "v")]] [] rfl rfl rfl
    (.obj [("id", .str "v")]) (by simp) "id" (by simp)

/-! ## Diagnostic shape lemmas -/

theorem pass1_diags {tbl : SchemaTbl} {path : List String} {P : String}
    {ks : List String} : ∀ d ∈ (pass1 tbl path P ks).2, ∃ q, d = .invalidProp q := by
  induction ks with
  | nil => simp [pass1]
  | cons k ks ih =>
    intro d hd
    simp only [pass1] at hd
    split at hd
    · split at hd <;> exact ih d hd
    · rcases List.mem_cons.1 hd with rfl | hd'
      · exact ⟨_, rfl⟩
      · exact ih d hd'

theorem pass2_diags {tbl : SchemaTbl} {fpd : JVal} {path : List String}
    {P : String} {ks : List String} :
    ∀ d ∈ (pass2 tbl fpd path P ks).2, ∃ q t, d = .expectedTypeProp q t := by
  induction ks with
  | nil => simp [pass2]
  | cons k ks ih =>
    intro d hd
    simp only [pass2] at hd
    split at hd
    · split at hd <;> exact ih d hd
    · rename_i m
      split at hd
      · split at hd <;> exact ih d hd
      · rcases List.mem_cons.1 hd with rfl | hd'
        · exact ⟨_, _, rfl⟩
        · exact ih d hd'

theorem stage1_diags {c : TypeDesc} {Q : String} {i : Nat} {xs : List JVal} :
    ∀ d ∈ (stage1 c Q i xs).2, ∃ j t, d = .expectedTypeElem Q j t := by
  induction xs generalizing i with
  | nil => simp [stage1]
  | cons v rest ih =>
    intro d hd
    simp only [stage1] at hd
    split at hd
    · exact ih d hd
    · rcases List.mem_cons.1 hd with rfl | hd'
      · exact ⟨_, _, rfl⟩
      · exact ih d hd'

theorem reqFold_diags {v : JVal} {p : String} {i : Nat} {req : List String}
    {b : Bool} {ds : List Diag}
    (h : getRequiredData.reqFold v p i req = .ok (b, ds)) :
    ∀ d ∈ ds, ∃ j k, d = .missingReq p j k := by
  induction req generalizing b ds with
  | nil =>
    simp only [getRequiredData.reqFold, Except.ok.injEq, Prod.mk.injEq] at h
    simp [← h.2]
  | cons key rest ih =>
    simp only [getRequiredData.reqFold] at h
    split at h
    · exact absurd h (by simp)
    · split at h
      · exact absurd h (by simp)
      · rename_i c ds' hrest
        split at h <;> simp only [Except.ok.injEq, Prod.mk.injEq] at h <;>
          (intro d hd; rw [← h.2] at hd)
        · rcases List.mem_cons.1 hd with rfl | hd'
          · exact ⟨_, _, rfl⟩
          · exact ih hrest d hd'
        · exact ih hrest d hd

theorem getRequiredData_diags {v : JVal} {p : String} {i : Nat}
    {req : Option (List String)} {b : Bool} {ds : List Diag}
    (h : getRequiredData v req p i = .ok (b, ds)) :
    ∀ d ∈ ds, ∃ j k, d = .missingReq p j k := by
  cases req with
  | none => exact absurd h (by simp [getRequiredData])
  | some req => exact reqFold_diags h

theorem stage2_diags {tbl : SchemaTbl} {path : List String} {Q : String}
    {i : Nat} {l r : List JVal} {ds : List Diag}
    (h : stage2 tbl path Q i l = .ok (r, ds)) :
    ∀ d ∈ ds, ∃ q j k, d = .missingReq q j k := by
  induction l generalizing i r ds with
  | nil =>
    simp only [stage2, Except.ok.injEq, Prod.mk.injEq] at h
    simp [← h.2]
  | cons x rest ih =>
    simp only [stage2] at h
    split at h
    · exact absurd h (by simp)
    · rename_i rc ds0 heq
      split at h
      · exact absurd h (by simp)
      · rename_i r' ds' heq'
        simp only [Except.ok.injEq, Prod.mk.injEq] at h
        intro d hd
        rw [← h.2] at hd
        rcases List.mem_append.1 hd with hd0 | hd1
        · -- from the per-element required check
          revert hd0
          split at heq
          · rename_i m hm
            split at heq
            · intro hd0
              obtain ⟨j, k, rfl⟩ := getRequiredData_diags heq d hd0
              exact ⟨_, _, _, rfl⟩
            · simp only [Except.ok.injEq, Prod.mk.injEq] at heq
              rw [← heq.2]
              simp
          · simp only [Except.ok.injEq, Prod.mk.injEq] at heq
            rw [← heq.2]
            simp
        · exact ih heq' d hd1

/-! ## Parent labels of array type diagnostics (used for C6) -/

theorem sizeOf_jval_pos (v : JVal) : 1 ≤ sizeOf v := by
  cases v <;> simp <;> omega

theorem sizeOf_jlist_pos (l : List JVal) : 1 ≤ sizeOf l := by
  cases l <;> simp <;> omega

theorem diagExt_bounded : ∀ n : Nat,
    (∀ (tbl : SchemaTbl) (ou : Bool) (fpd : JVal) (path : List String) (P : String)
       (w : JVal) (ds : List Diag), sizeOf fpd ≤ n →
       validateFpd tbl ou fpd path P = .ok (w, ds) → elemExt P ds) ∧
    (∀ (tbl : SchemaTbl) (ou : Bool) (c : TypeDesc) (path : List String) (Q : String)
       (i : Nat) (l r : List JVal) (ds : List Diag), sizeOf l ≤ n →
       faReduce tbl ou c path Q i l = .ok (r, ds) → elemExtDot Q ds) ∧
    (∀ (tbl : SchemaTbl) (ou : Bool) (xs : List JVal) (c : TypeDesc)
       (path : List String) (Q : String) (r : List JVal) (ds : List Diag),
       sizeOf xs ≤ n →
       filterArrayData tbl ou xs c path Q = .ok (r, ds) →
       ∀ p i t, Diag.expectedTypeElem p i t ∈ ds →
         p = Q ∨ ∃ s, p = Q ++ "." ++ s) := by
  intro n
  induction n with
  | zero =>
    refine ⟨fun tbl ou fpd _ _ _ _ hsz _ => ?_,
            fun tbl ou c _ _ _ l _ _ hsz _ => ?_,
            fun tbl ou xs _ _ _ _ _ hsz _ => ?_⟩
    · exact absurd hsz (by have := sizeOf_jval_pos fpd; omega)
    · exact absurd hsz (by have := sizeOf_jlist_pos l; omega)
    · exact absurd hsz (by have := sizeOf_jlist_pos xs; omega)
  | succ n ihn =>
    obtain ⟨ihA, ihC, ihB⟩ := ihn
    -- faStep: diagnostics live strictly below Q
    have hS : ∀ (tbl : SchemaTbl) (ou : Bool) (c : TypeDesc) (path : List String)
        (Q : String) (i : Nat) (v : JVal) (o : Option JVal) (dv : List Diag),
        sizeOf v ≤ n → faStep tbl ou c path Q i v = .ok (o, dv) → elemExtDot Q dv := by
      intro tbl ou c path Q i v o dv hsz h
      rw [faStep] at h
      split at h
      · -- string: no diagnostics
        simp only [Except.ok.injEq, Prod.mk.injEq] at h
        intro p j t hmem
        rw [← h.2] at hmem
        exact absurd hmem (List.not_mem_nil _)
      · -- object
        split at h
        · rename_i m hm
          split at h
          · rename_i hch
            split at h
            · exact absurd h (by simp)
            · rename_i w' dw hvf
              have hdw : elemExt (Q ++ ".") dw :=
                ihA tbl ou v path (Q ++ ".") w' dw (by omega) hvf
              split at h
              · split at h
                · exact absurd h (by simp)
                · rename_i rc dr hgr
                  have hdr := getRequiredData_diags hgr
                  split at h <;> simp only [Except.ok.injEq, Prod.mk.injEq] at h <;>
                    (intro p j t hmem; rw [← h.2] at hmem)
                  · rcases List.mem_append.1 hmem with hm1 | hm2
                    · exact hdw p j t hm1
                    · obtain ⟨j', k', hk⟩ := hdr _ hm2
                      exact absurd hk (by simp)
                  · rcases List.mem_append.1 hmem with hm0 | hm2
                    · rcases List.mem_append.1 hm0 with hm1 | hm1
                      · exact hdw p j t hm1
                      · obtain ⟨j', k', hk⟩ := hdr _ hm1
                        exact absurd hk (by simp)
                    · rcases List.mem_cons.1 hm2 with hk | hk
                      · exact absurd hk (by simp)
                      · exact absurd hk (List.not_mem_nil _)
              · simp only [Except.ok.injEq, Prod.mk.injEq] at h
                intro p j t hmem
                rw [← h.2] at hmem
                rcases List.mem_append.1 hmem with hm1 | hm2
                · exact hdw p j t hm1
                · rcases List.mem_cons.1 hm2 with hk | hk
                  · exact absurd hk (by simp)
                  · exact absurd hk (List.not_mem_nil _)
          · simp only [Except.ok.injEq, Prod.mk.injEq] at h
            intro p j t hmem
            rw [← h.2] at hmem
            exact absurd hmem (List.not_mem_nil _)
        · simp only [Except.ok.injEq, Prod.mk.injEq] at h
          intro p j t hmem
          rw [← h.2] at hmem
          exact absurd hmem (List.not_mem_nil _)
      · -- number / missing child type: one expectedTypeElem2 diagnostic
        simp only [Except.ok.injEq, Prod.mk.injEq] at h
        intro p j t hmem
        rw [← h.2] at hmem
        rcases List.mem_cons.1 hmem with hk | hk
        · exact absurd hk (by simp)
        · exact absurd hk (List.not_mem_nil _)
    -- faReduce
    have hC : ∀ (tbl : SchemaTbl) (ou : Bool) (c : TypeDesc) (path : List String)
        (Q : String) (i : Nat) (l r : List JVal) (ds : List Diag),
        sizeOf l ≤ n + 1 → faReduce tbl ou c path Q i l = .ok (r, ds) →
        elemExtDot Q ds := by
      intro tbl ou c path Q i l
      induction l generalizing i with
      | nil =>
        intro r ds hsz h
        rw [faReduce_nil] at h
        simp only [Except.ok.injEq, Prod.mk.injEq] at h
        intro p j t hmem
        rw [← h.2] at hmem
        exact absurd hmem (List.not_mem_nil _)
      | cons v rest ih =>
        intro r ds hsz h
        obtain ⟨o, dv, r', ds', hstep, hrest, -, hds⟩ := faReduce_cons_ok h
        have hszv : sizeOf v ≤ n := by
          simp only [List.cons.sizeOf_spec] at hsz
          have := sizeOf_jlist_pos rest
          omega
        have hszr : sizeOf rest ≤ n + 1 := by
          simp only [List.cons.sizeOf_spec] at hsz
          have := sizeOf_jval_pos v
          omega
        have h1 := hS tbl ou c path Q i v o dv hszv hstep
        have h2 := ih (i + 1) r' ds' hszr hrest
        intro p j t hmem
        rw [hds] at hmem
        rcases List.mem_append.1 hmem with hm1 | hm2
        · exact h1 p j t hm1
        · exact h2 p j t hm2
    -- filterArrayData
    have hB : ∀ (tbl : SchemaTbl) (ou : Bool) (xs : List JVal) (c : TypeDesc)
        (path : List String) (Q : String) (r : List JVal) (ds : List Diag),
        sizeOf xs ≤ n + 1 → filterArrayData tbl ou xs c path Q = .ok (r, ds) →
        ∀ p i t, Diag.expectedTypeElem p i t ∈ ds →
          p = Q ∨ ∃ s, p = Q ++ "." ++ s := by
      intro tbl ou xs c path Q r ds hsz h
      obtain ⟨s2, d2, d3, h2, h3, hds⟩ := filterArrayData_ok_inv h
      have hs2 : sizeOf s2 ≤ n + 1 :=
        Nat.le_trans
          (Nat.le_trans (sublist_sizeOf_le (stage2_sublist h2))
            (sublist_sizeOf_le (stage1_sublist c Q 0 xs))) hsz
      intro p i t hmem
      rw [hds] at hmem
      rcases List.mem_append.1 hmem with hm0 | hm3
      · rcases List.mem_append.1 hm0 with hm1 | hm2
        · obtain ⟨j, t', he⟩ := stage1_diags _ hm1
          left
          cases he
          rfl
        · obtain ⟨q, j, k, he⟩ := stage2_diags h2 _ hm2
          exact absurd he (by simp)
      · exact Or.inr (hC tbl ou c path Q 0 s2 r d3 hs2 h3 p i t hm3)
    -- modStep
    have hM : ∀ (tbl : SchemaTbl) (ou : Bool) (fpd : JVal) (path : List String)
        (P : String) (k : String) (m : Mapping) (w : JVal) (dm : List Diag),
        sizeOf fpd ≤ n + 1 → modStep tbl ou fpd path P k m = .ok (w, dm) →
        elemExt P dm := by
      intro tbl ou fpd path P k m w dm hsz h
      rw [modStep] at h
      split at h
      · -- object branch: recursive validateFpd
        split at h
        · rename_i fs hv
          have hlt : sizeOf (JVal.obj fs) < sizeOf fpd := by
            have := jGetD_struct_lt fpd k (by rw [hv]; rfl)
            rw [hv] at this
            exact this
          have := ihA tbl ou (.obj fs) (path ++ [k]) (P ++ k ++ ".") w dm
            (by omega) h
          intro p j t hmem
          obtain ⟨s, hs⟩ := this p j t hmem
          exact ⟨k ++ "." ++ s, by simp [hs, String.append_assoc]⟩
        · rename_i xs hv
          have hlt : sizeOf (JVal.arr xs) < sizeOf fpd := by
            have := jGetD_struct_lt fpd k (by rw [hv]; rfl)
            rw [hv] at this
            exact this
          have := ihA tbl ou (.arr xs) (path ++ [k]) (P ++ k ++ ".") w dm
            (by omega) h
          intro p j t hmem
          obtain ⟨s, hs⟩ := this p j t hmem
          exact ⟨k ++ "." ++ s, by simp [hs, String.append_assoc]⟩
        · simp only [Except.ok.injEq, Prod.mk.injEq] at h
          intro p j t hmem
          rw [← h.2] at hmem
          exact absurd hmem (List.not_mem_nil _)
      · split at h
        · -- array branch: filterArrayData at parent P ++ k
          split at h
          · rename_i xs hv
            have hlt : sizeOf (JVal.arr xs) < sizeOf fpd := by
              have := jGetD_struct_lt fpd k (by rw [hv]; rfl)
              rw [hv] at this
              exact this
            have hxs : sizeOf xs ≤ n := by
              simp only [JVal.arr.sizeOf_spec] at hlt
              omega
            split at h
            · exact absurd h (by simp)
            · rename_i ys ds' hfa
              simp only [Except.ok.injEq, Prod.mk.injEq] at h
              intro p j t hmem
              rw [← h.2] at hmem
              rcases ihB tbl ou xs ⟨m.childType, m.childisArray⟩ (path ++ [k])
                  (P ++ k) ys ds' hxs hfa p j t hmem with he | ⟨s, hs⟩
              · exact ⟨k, by simp [he]⟩
              · exact ⟨k ++ "." ++ s, by simp [hs, String.append_assoc]⟩
          · exact absurd h (by simp)
        · -- verbatim branch: no diagnostics
          simp only [Except.ok.injEq, Prod.mk.injEq] at h
          intro p j t hmem
          rw [← h.2] at hmem
          exact absurd hmem (List.not_mem_nil _)
    -- reduceKey
    have hE : ∀ (tbl : SchemaTbl) (ou : Bool) (fpd : JVal) (path : List String)
        (P : String) (k : String) (o : Option JVal) (dk : List Diag),
        sizeOf fpd ≤ n + 1 → reduceKey tbl ou fpd path P k = .ok (o, dk) →
        elemExt P dk := by
      intro tbl ou fpd path P k o dk hsz h
      rw [reduceKey] at h
      split at h
      · simp only [Except.ok.injEq, Prod.mk.injEq] at h
        intro p j t hmem
        rw [← h.2] at hmem
        exact absurd hmem (List.not_mem_nil _)
      · rename_i m hm
        split at h
        · simp only [Except.ok.injEq, Prod.mk.injEq] at h
          intro p j t hmem
          rw [← h.2] at hmem
          rcases List.mem_cons.1 hmem with hk | hk
          · exact absurd hk (by simp)
          · exact absurd hk (List.not_mem_nil _)
        · split at h
          · exact absurd h (by simp)
          · rename_i md dm hms
            have hdm := hM tbl ou fpd path P k m md dm hsz hms
            split at h <;> simp only [Except.ok.injEq, Prod.mk.injEq] at h <;>
              (intro p j t hmem; rw [← h.2] at hmem)
            · exact hdm p j t hmem
            · rcases List.mem_append.1 hmem with hm1 | hm2
              · exact hdm p j t hm1
              · rcases List.mem_cons.1 hm2 with hk | hk
                · exact absurd hk (by simp)
                · exact absurd hk (List.not_mem_nil _)
    -- vfReduce
    have hD : ∀ (tbl : SchemaTbl) (ou : Bool) (fpd : JVal) (path : List String)
        (P : String) (acc : List (String × JVal)) (ks : List String)
        (fs : List (String × JVal)) (ds : List Diag),
        sizeOf fpd ≤ n + 1 → vfReduce tbl ou fpd path P acc ks = .ok (fs, ds) →
        elemExt P ds := by
      intro tbl ou fpd path P acc ks
      induction ks generalizing acc with
      | nil =>
        intro fs ds hsz h
        rw [vfReduce_nil] at h
        simp only [Except.ok.injEq, Prod.mk.injEq] at h
        intro p j t hmem
        rw [← h.2] at hmem
        exact absurd hmem (List.not_mem_nil _)
      | cons k ks ih =>
        intro fs ds hsz h
        obtain ⟨o, dk, ds', hrk, hrest, hds⟩ := vfReduce_cons_ok h
        have h1 := hE tbl ou fpd path P k o dk hsz hrk
        have h2 := ih _ fs ds' hsz hrest
        intro p j t hmem
        rw [hds] at hmem
        rcases List.mem_append.1 hmem with hm1 | hm2
        · exact h1 p j t hm1
        · exact h2 p j t hm2
    -- validateFpd
    refine ⟨?_, hC, hB⟩
    intro tbl ou fpd path P w ds hsz h
    rcases validateFpd_ok_inv h with ⟨-, -, hds⟩ | ⟨-, fields, d3, hvf, -, hds⟩
    · intro p j t hmem
      rw [hds] at hmem
      exact absurd hmem (List.not_mem_nil _)
    · intro p j t hmem
      rw [hds] at hmem
      rcases List.mem_append.1 hmem with hm0 | hm3
      · rcases List.mem_append.1 hm0 with hm1 | hm2
        · obtain ⟨q, he⟩ := pass1_diags _ hm1
          exact absurd he (by simp)
        · obtain ⟨q, t', he⟩ := pass2_diags _ hm2
          exact absurd he (by simp)
      · exact hD tbl ou fpd path P [] _ fields d3 hsz hvf p j t hm3

/-! ## Claim C6 (amended) -/

theorem stage1_shift (c : TypeDesc) (Q : String) (xs : List JVal) :
    ∀ i, (stage1 c Q (i + 1) xs).1 = (stage1 c Q i xs).1 ∧
         (stage1 c Q (i + 1) xs).2 = (stage1 c Q i xs).2.map (bumpAt Q) := by
  induction xs with
  | nil => intro i; simp [stage1]
  | cons v rest ih =>
    intro i
    obtain ⟨h1, h2⟩ := ih (i + 1)
    simp only [stage1]
    split
    · simp [h1, h2]
    · simp [h1, h2, bumpAt]

theorem map_bumpAt_id {Q : String} {l : List Diag}
    (h : ∀ d ∈ l, bumpAt Q d = d) : l.map (bumpAt Q) = l := by
  induction l with
  | nil => rfl
  | cons d rest ih =>
    rw [List.map_cons, h d (List.mem_cons_self _ _),
        ih (fun d' hd' => h d' (List.mem_cons_of_mem _ hd'))]

theorem bumpAt_ne {Q p : String} {i : Nat} {t : String} (h : p ≠ Q) :
    bumpAt Q (.expectedTypeElem p i t) = .expectedTypeElem p i t := by
  simp [bumpAt, h]

theorem dot_ext_ne (Q s : String) : Q ++ "." ++ s ≠ Q := by
  intro h
  have hl := congrArg String.length h
  rw [String.length_append, String.length_append] at hl
  have hdot : String.length "." = 1 := rfl
  omega

/-- C6 (amended): the required-stage and shape-stage diagnostics count
positions among the previous stage's survivors, not original indices:
prepending an element that the type stage drops adds one type-stage
diagnostic at index 0, bumps the indices of the outer type-stage
diagnostics by one, and leaves the result and all later-stage
diagnostics (including their indices) untouched. -/
theorem C6_later_stages_recount (tbl : SchemaTbl) (ou : Bool) (bad : JVal)
    (c : TypeDesc) (xs : List JVal) (path : List String) (Q : String)
    (r : List JVal) (ds : List Diag)
    (hbad : (typeValidation bad ⟨c.type, c.isArray⟩ && (jIsArray bad == c.isArray)) = false)
    (h : filterArrayData tbl ou xs c path Q = .ok (r, ds)) :
    filterArrayData tbl ou (bad :: xs) c path Q =
      .ok (r, .expectedTypeElem Q 0 (typeName c.type) :: ds.map (bumpAt Q)) := by
  obtain ⟨s2, d2, d3, h2, h3, hds⟩ := filterArrayData_ok_inv h
  have hsh := stage1_shift c Q xs 0
  have h1 : stage1 c Q 0 (bad :: xs) =
      ((stage1 c Q 0 xs).1,
       .expectedTypeElem Q 0 (typeName c.type) ::
         (stage1 c Q 0 xs).2.map (bumpAt Q)) := by
    simp only [stage1]
    rw [if_neg (by simp [hbad])]
    rw [Prod.ext_iff]
    exact ⟨hsh.1, by rw [hsh.2]⟩
  have hdotd3 : elemExtDot Q d3 :=
    (diagExt_bounded (sizeOf s2)).2.1 tbl ou c path Q 0 s2 r d3 (Nat.le_refl _) h3
  have hd2 : d2.map (bumpAt Q) = d2 :=
    map_bumpAt_id (fun d hd => by
      obtain ⟨q, j, k, rfl⟩ := stage2_diags h2 d hd
      rfl)
  have hd3 : d3.map (bumpAt Q) = d3 :=
    map_bumpAt_id (fun d hd => by
      cases d with
      | expectedTypeElem p j t =>
        obtain ⟨s, rfl⟩ := hdotd3 p j t hd
        exact bumpAt_ne (dot_ext_ne Q s)
      | invalidProp q => rfl
      | expectedTypeProp q t => rfl
      | optoutFound q => rfl
      | emptyData q => rfl
      | missingReq q j k => rfl
      | expectedTypeElem2 q j k => rfl)
  rw [filterArrayData_eq, h1]
  dsimp only
  rw [h2]
  dsimp only
  rw [h3]
  rw [hds]
  simp [List.map_append, hd2, hd3]

set_option maxRecDepth 100000 in
set_option maxHeartbeats 1000000 in
unseal validateFpd vfReduce reduceKey modStep filterArrayData faReduce faStep in
/-- Witness for C6: prepending the number 5 (dropped by the type stage)
to a one-string array adds only the index-0 type diagnostic. -/
theorem C6_witness :
    (typeValidation (.num (.int 5)) ⟨some JType.string, false⟩ &&
      (jIsArray (.num (.int 5)) == false)) = false ∧
    filterArrayData [] false [.num (.int 5), .str "s"]
      ⟨some JType.string, false⟩ ["p"] "p" =
      .ok ([.str "s"], [.expectedTypeElem "p" 0 "string"]) := by
  refine ⟨rfl, ?_⟩
  have happ := C6_later_stages_recount [] false (.num (.int 5))
    ⟨some JType.string, false⟩ [.str "s"] ["p"] "p" [.str "s"] [] rfl rfl
  simpa [typeName] using happ

/-! ## Schema lookup and redaction helper lemmas -/

theorem lookup_pair_mem {α β : Type} [BEq α] [LawfulBEq α] {l : List (α × β)}
    {k : α} {v : β} (h : l.lookup k = some v) : (k, v) ∈ l := by
  induction l with
  | nil => simp [List.lookup] at h
  | cons p rest ih =>
    obtain ⟨k', v'⟩ := p
    simp only [List.lookup] at h
    by_cases hk : (k == k') = true
    · rw [hk] at h
      simp only [Option.some.injEq] at h
      have : k = k' := eq_of_beq hk
      subst this
      subst h
      exact List.mem_cons_self _ _
    · rw [Bool.not_eq_true] at hk
      rw [hk] at h
      exact List.mem_cons_of_mem _ (ih h)

/-- Extensions of a dead path are dead. -/
theorem lookupPath_none_ext {tbl : SchemaTbl} {p : List String}
    (hp : p ≠ []) (h : lookupPath tbl p = none) :
    ∀ q, q ≠ [] → lookupPath tbl (p ++ q) = none := by
  induction p generalizing tbl with
  | nil => exact absurd rfl hp
  | cons k p' ih =>
    intro q hq
    cases hlk : tbl.lookup k with
    | none =>
      cases p' with
      | nil =>
        cases q with
        | nil => exact absurd rfl hq
        | cons c d => simp [lookupPath, hlk]
      | cons a b => simp [lookupPath, hlk]
    | some m =>
      cases p' with
      | nil => simp [lookupPath, hlk] at h
      | cons a b =>
        simp only [lookupPath, hlk] at h
        simp only [List.cons_append, lookupPath, hlk]
        have := ih (by simp) h q hq
        simpa using this

/-- Extensions below a descriptor with no `children` are dead. -/
theorem lookupPath_children_none_ext {tbl : SchemaTbl} {p : List String}
    {m : Mapping} (h : lookupPath tbl p = some m) (hch : m.children = none) :
    ∀ q, q ≠ [] → lookupPath tbl (p ++ q) = none := by
  induction p generalizing tbl with
  | nil => simp [lookupPath] at h
  | cons k p' ih =>
    intro q hq
    cases hlk : tbl.lookup k with
    | none =>
      cases p' with
      | nil => simp [lookupPath, hlk] at h
      | cons a b => simp [lookupPath, hlk] at h
    | some m' =>
      cases p' with
      | nil =>
        simp only [lookupPath, hlk, Option.some.injEq] at h
        subst h
        cases q with
        | nil => exact absurd rfl hq
        | cons c d =>
          simp only [List.nil_append, List.cons_append, lookupPath, hlk]
          rw [hch]
          cases d with
          | nil => simp [List.lookup]
          | cons e f => simp [List.lookup]
      | cons a b =>
        simp only [lookupPath, hlk] at h
        simp only [List.cons_append, lookupPath, hlk]
        have := ih h q hq
        simpa using this

theorem allMaps_cons {p : Mapping → Bool} {k : String} {m : Mapping}
    {rest : SchemaTbl} :
    allMaps p ((k, m) :: rest) =
      (p m && allMaps p (m.children.getD []) && allMaps p rest) := by
  rw [allMaps]

theorem allMaps_mem {p : Mapping → Bool} {tbl : SchemaTbl}
    (h : allMaps p tbl = true) {k : String} {m : Mapping}
    (hm : (k, m) ∈ tbl) : p m = true ∧ allMaps p (m.children.getD []) = true := by
  induction tbl with
  | nil => exact absurd hm (List.not_mem_nil _)
  | cons e rest ih =>
    obtain ⟨k', m'⟩ := e
    rw [allMaps_cons] at h
    simp only [Bool.and_eq_true] at h
    rcases List.mem_cons.1 hm with he | hm'
    · cases he
      exact ⟨h.1.1, h.1.2⟩
    · exact ih h.2 hm'

/-- Every descriptor reachable by `lookupPath` satisfies an `allMaps`
predicate. -/
theorem allMaps_lookupPath {p : Mapping → Bool} :
    ∀ {q : List String} {tbl : SchemaTbl} {m : Mapping},
      allMaps p tbl = true → lookupPath tbl q = some m →
      p m = true ∧ allMaps p (m.children.getD []) = true := by
  intro q
  induction q with
  | nil => intro tbl m _ hm; simp [lookupPath] at hm
  | cons k q' ih =>
    intro tbl m h hm
    cases hlk : tbl.lookup k with
    | none =>
      cases q' with
      | nil => simp [lookupPath, hlk] at hm
      | cons a b => simp [lookupPath, hlk] at hm
    | some m' =>
      have hmem := allMaps_mem h (lookup_pair_mem hlk)
      cases q' with
      | nil =>
        simp only [lookupPath, hlk, Option.some.injEq] at hm
        subst hm
        exact hmem
      | cons a b =>
        simp only [lookupPath, hlk] at hm
        exact ih hmem.2 hm

theorem noOptoutXs_of_mem {tbl : SchemaTbl} {path : List String} {l : List JVal}
    (h : ∀ v ∈ l, noOptoutB tbl path v = true) : noOptoutXs tbl path l = true := by
  induction l with
  | nil => rfl
  | cons v rest ih =>
    simp only [noOptoutXs, Bool.and_eq_true]
    exact ⟨h v (List.mem_cons_self _ _),
           ih fun v' hv' => h v' (List.mem_cons_of_mem _ hv')⟩

theorem noOptoutFs_objSet {tbl : SchemaTbl} {path : List String}
    {acc : List (String × JVal)} {k : String} {v : JVal}
    (hacc : noOptoutFs tbl path acc = true)
    (hk : (match lookupPath tbl (path ++ [k]) with
           | some m => !m.optoutApplies
           | none => true) = true)
    (hv : noOptoutB tbl (path ++ [k]) v = true) :
    noOptoutFs tbl path (objSet acc k v) = true := by
  induction acc with
  | nil =>
    simp only [objSet, noOptoutFs, Bool.and_eq_true]
    exact ⟨⟨hk, hv⟩, trivial⟩
  | cons e rest ih =>
    obtain ⟨k', v'⟩ := e
    simp only [noOptoutFs, Bool.and_eq_true] at hacc
    simp only [objSet]
    by_cases hkk : (k' == k) = true
    · rw [if_pos hkk]
      simp only [noOptoutFs, Bool.and_eq_true]
      exact ⟨⟨hk, hv⟩, hacc.2⟩
    · rw [if_neg hkk]
      simp only [noOptoutFs, Bool.and_eq_true]
      exact ⟨hacc.1, ih hacc.2⟩

/-- Every value is redaction-clean below a dead schema path. -/
theorem noOptoutB_of_dead {tbl : SchemaTbl} :
    ∀ (v : JVal) (path : List String),
      (∀ q, q ≠ [] → lookupPath tbl (path ++ q) = none) →
      noOptoutB tbl path v = true := by
  have main : ∀ n (v : JVal) (path : List String), sizeOf v ≤ n →
      (∀ q, q ≠ [] → lookupPath tbl (path ++ q) = none) →
      noOptoutB tbl path v = true := by
    intro n
    induction n with
    | zero =>
      intro v _ hsz _
      exact absurd hsz (by have := sizeOf_jval_pos v; omega)
    | succ n ih =>
      intro v path hsz hdead
      cases v with
      | obj fs =>
        show noOptoutFs tbl path fs = true
        have hfs : sizeOf fs ≤ n := by
          simp only [JVal.obj.sizeOf_spec] at hsz
          omega
        clear hsz
        induction fs with
        | nil => rfl
        | cons e rest ihf =>
          obtain ⟨k, v'⟩ := e
          simp only [List.cons.sizeOf_spec, Prod.mk.sizeOf_spec] at hfs
          simp only [noOptoutFs, Bool.and_eq_true]
          refine ⟨⟨?_, ?_⟩, ihf (by omega)⟩
          · rw [hdead [k] (by simp)]
          · refine ih v' (path ++ [k]) (by omega) ?_
            intro q hq
            rw [List.append_assoc]
            exact hdead ([k] ++ q) (by simp)
      | arr xs =>
        show noOptoutXs tbl path xs = true
        have hxs : sizeOf xs ≤ n := by
          simp only [JVal.arr.sizeOf_spec] at hsz
          omega
        clear hsz
        induction xs with
        | nil => rfl
        | cons v' rest ihx =>
          simp only [List.cons.sizeOf_spec] at hxs
          simp only [noOptoutXs, Bool.and_eq_true]
          exact ⟨ih v' path (by omega) hdead, ihx (by omega)⟩
      | jnull => rfl
      | undef => rfl
      | bool b => rfl
      | num m => rfl
      | str s => rfl
  intro v path hdead
  exact main (sizeOf v) v path (Nat.le_refl _) hdead

theorem typeValidation_string_inv {v : JVal} {a : Bool}
    (h : typeValidation v ⟨some JType.string, a⟩ = true) : ∃ s, v = .str s := by
  cases v with
  | str s => exact ⟨s, rfl⟩
  | jnull => simp [typeValidation, jTypeof] at h
  | undef => simp [typeValidation, jTypeof] at h
  | bool b => simp [typeValidation, jTypeof] at h
  | num n => simp [typeValidation, jTypeof] at h
  | arr xs => simp [typeValidation, jTypeof] at h
  | obj fs => simp [typeValidation, jTypeof] at h

theorem pass2_mem {tbl : SchemaTbl} {fpd : JVal} {path : List String}
    {P : String} {ks : List String} :
    ∀ k ∈ (pass2 tbl fpd path P ks).1,
      lookupPath tbl (path ++ [k]) = none ∨
      (∃ m, lookupPath tbl (path ++ [k]) = some m ∧
        typeValidation (jGetD fpd k) ⟨m.type, m.isArray⟩ = true) := by
  induction ks with
  | nil => simp [pass2]
  | cons k0 ks ih =>
    intro k hk
    simp only [pass2] at hk
    split at hk
    · rename_i hm
      split at hk
      · exact ih k hk
      · rcases List.mem_cons.1 hk with rfl | hk'
        · exact Or.inl hm
        · exact ih k hk'
    · rename_i m hm
      split at hk
      · rename_i hty
        split at hk
        · exact ih k hk
        · rcases List.mem_cons.1 hk with rfl | hk'
          · exact Or.inr ⟨m, hm, hty⟩
          · exact ih k hk'
      · exact ih k hk

/-! ## Claim C7 (amended): redaction under the spec's schema invariant -/

theorem redact_bounded : ∀ n : Nat,
    (∀ (tbl : SchemaTbl) (fpd : JVal) (path : List String) (P : String)
       (w : JVal) (ds : List Diag), sizeOf fpd ≤ n →
       allMaps wfChildType tbl = true →
       validateFpd tbl true fpd path P = .ok (w, ds) →
       noOptoutB tbl path w = true) ∧
    (∀ (tbl : SchemaTbl) (xs : List JVal) (c : TypeDesc) (path : List String)
       (Q : String) (m : Mapping) (ys : List JVal) (ds : List Diag),
       sizeOf xs ≤ n →
       allMaps wfChildType tbl = true →
       lookupPath tbl path = some m →
       filterArrayData tbl true xs c path Q = .ok (ys, ds) →
       noOptoutXs tbl path ys = true) := by
  intro n
  induction n with
  | zero =>
    refine ⟨fun tbl fpd _ _ _ _ hsz _ _ => ?_,
            fun tbl xs _ _ _ _ _ _ hsz _ _ _ => ?_⟩
    · exact absurd hsz (by have := sizeOf_jval_pos fpd; omega)
    · exact absurd hsz (by have := sizeOf_jlist_pos xs; omega)
  | succ n ihn =>
    obtain ⟨ihA, ihB⟩ := ihn
    -- the array statement at n + 1
    have hB : ∀ (tbl : SchemaTbl) (xs : List JVal) (c : TypeDesc)
        (path : List String) (Q : String) (m : Mapping) (ys : List JVal)
        (ds : List Diag), sizeOf xs ≤ n + 1 →
        allMaps wfChildType tbl = true →
        lookupPath tbl path = some m →
        filterArrayData tbl true xs c path Q = .ok (ys, ds) →
        noOptoutXs tbl path ys = true := by
      intro tbl xs c path Q m ys ds hsz hwf hm h
      obtain ⟨s2, d2, d3, h2, h3, -⟩ := filterArrayData_ok_inv h
      refine noOptoutXs_of_mem ?_
      intro w hw
      obtain ⟨j, v, dv, hv, hstep⟩ := faReduce_mem h3 w hw
      have hvs1 : v ∈ (stage1 c Q 0 xs).1 := (stage2_sublist h2).subset hv
      have hvxs : v ∈ xs := (stage1_sublist c Q 0 xs).subset hvs1
      have hvsz : sizeOf v ≤ n := by
        have := List.sizeOf_lt_of_mem hvxs
        omega
      cases hct : c.type with
      | none =>
        rw [faStep_number_or_none (by simp [hct]) (by simp [hct])] at hstep
        exact absurd hstep (by simp)
      | some t =>
        cases t with
        | number =>
          rw [faStep_number_or_none (by simp [hct]) (by simp [hct])] at hstep
          exact absurd hstep (by simp)
        | string =>
          rw [faStep_string hct] at hstep
          simp only [Except.ok.injEq, Prod.mk.injEq, Option.some.injEq] at hstep
          have hty1 : typeValidation v ⟨c.type, c.isArray⟩ = true :=
            Bool.and_elim_left (stage1_mem v hvs1).2
          rw [hct] at hty1
          obtain ⟨s, hs⟩ := typeValidation_string_inv hty1
          rw [← hstep.1, hs]
          rfl
        | object =>
          cases hch : m.children with
          | none =>
            rw [faStep_object_nochildren hct hm (by simp [hch])] at hstep
            simp only [Except.ok.injEq, Prod.mk.injEq, Option.some.injEq] at hstep
            rw [← hstep.1]
            exact noOptoutB_of_dead v path
              (lookupPath_children_none_ext hm hch)
          | some ch =>
            rw [faStep_object_children hct hm (by simp [hch])] at hstep
            split at hstep
            · exact absurd hstep (by simp)
            · rename_i w' dw hvf
              split at hstep
              · split at hstep
                · exact absurd hstep (by simp)
                · rename_i rc dr hgr
                  split at hstep
                  · simp only [Except.ok.injEq, Prod.mk.injEq, Option.some.injEq] at hstep
                    rw [← hstep.1]
                    exact ihA tbl v path (Q ++ ".") w' dw hvsz hwf hvf
                  · exact absurd hstep (by simp)
              · exact absurd hstep (by simp)
    -- modStep
    have hM : ∀ (tbl : SchemaTbl) (fpd : JVal) (path : List String) (P : String)
        (k : String) (m : Mapping) (md : JVal) (dm : List Diag),
        sizeOf fpd ≤ n + 1 →
        allMaps wfChildType tbl = true →
        lookupPath tbl (path ++ [k]) = some m →
        typeValidation (jGetD fpd k) ⟨m.type, m.isArray⟩ = true →
        modStep tbl true fpd path P k m = .ok (md, dm) →
        noOptoutB tbl (path ++ [k]) md = true := by
      intro tbl fpd path P k m md dm hsz hwf hm hty h
      rw [modStep] at h
      split at h
      · -- object / not array: recursion
        rename_i hc1
        split at h
        · rename_i fs hv
          have hlt : sizeOf (JVal.obj fs) < sizeOf fpd := by
            have := jGetD_struct_lt fpd k (by rw [hv]; rfl)
            rw [hv] at this
            exact this
          exact ihA tbl (.obj fs) (path ++ [k]) (P ++ k ++ ".") md dm
            (by omega) hwf h
        · rename_i xs hv
          have hlt : sizeOf (JVal.arr xs) < sizeOf fpd := by
            have := jGetD_struct_lt fpd k (by rw [hv]; rfl)
            rw [hv] at this
            exact this
          exact ihA tbl (.arr xs) (path ++ [k]) (P ++ k ++ ".") md dm
            (by omega) hwf h
        · simp only [Except.ok.injEq, Prod.mk.injEq] at h
          rw [← h.1]
          rfl
      · split at h
        · -- array branch
          rename_i hc1 hc2
          split at h
          · rename_i xs hv
            have hlt : sizeOf (JVal.arr xs) < sizeOf fpd := by
              have := jGetD_struct_lt fpd k (by rw [hv]; rfl)
              rw [hv] at this
              exact this
            have hxs : sizeOf xs ≤ n := by
              simp only [JVal.arr.sizeOf_spec] at hlt
              omega
            split at h
            · exact absurd h (by simp)
            · rename_i ys ds' hfa
              simp only [Except.ok.injEq, Prod.mk.injEq] at h
              rw [← h.1]
              show noOptoutXs tbl (path ++ [k]) ys = true
              exact hB tbl xs ⟨m.childType, m.childisArray⟩ (path ++ [k])
                (P ++ k) m ys ds' (by omega) hwf hm hfa
          · exact absurd h (by simp)
        · -- verbatim branch
          rename_i hc1 hc2
          simp only [Except.ok.injEq, Prod.mk.injEq] at h
          rw [← h.1]
          cases hmt : m.type with
          | none => rw [hmt] at hty; simp [typeValidation] at hty
          | some t =>
            cases t with
            | string =>
              have hty1 : typeValidation (jGetD fpd k) ⟨m.type, m.isArray⟩ = true := hty
              rw [hmt] at hty1
              obtain ⟨s, hs⟩ := typeValidation_string_inv hty1
              rw [hs]
              rfl
            | number =>
              have hty1 : typeValidation (jGetD fpd k) ⟨m.type, m.isArray⟩ = true := hty
              rw [hmt] at hty1
              obtain ⟨nn, hn⟩ := typeValidation_number_inv hty1
              rw [hn]
              rfl
            | object =>
              exfalso
              have hwfm : wfChildType m = true := (allMaps_lookupPath hwf hm).1
              have hc1' : m.isArray = true := by
                revert hc1
                rw [hmt]
                cases m.isArray <;> simp
              have hc2' : m.childType = none := by
                revert hc2
                rw [hc1']
                cases hmc : m.childType <;> simp
              rw [wfChildType, hc1', hmt, hc2'] at hwfm
              simp at hwfm
    -- reduceKey
    have hE : ∀ (tbl : SchemaTbl) (fpd : JVal) (path : List String) (P : String)
        (k : String) (o : Option JVal) (dk : List Diag),
        sizeOf fpd ≤ n + 1 →
        allMaps wfChildType tbl = true →
        (lookupPath tbl (path ++ [k]) = none ∨
          (∃ m, lookupPath tbl (path ++ [k]) = some m ∧
            typeValidation (jGetD fpd k) ⟨m.type, m.isArray⟩ = true)) →
        reduceKey tbl true fpd path P k = .ok (o, dk) →
        ∀ v, o = some v →
          (match lookupPath tbl (path ++ [k]) with
           | some m => !m.optoutApplies
           | none => true) = true ∧
          noOptoutB tbl (path ++ [k]) v = true := by
      intro tbl fpd path P k o dk hsz hwf hdisj h
      rw [reduceKey] at h
      split at h
      · rename_i hm
        simp only [Except.ok.injEq, Prod.mk.injEq] at h
        intro v hvv
        rw [← h.1] at hvv
        simp only [Option.some.injEq] at hvv
        refine ⟨by rw [hm], ?_⟩
        rw [← hvv]
        exact noOptoutB_of_dead _ _
          (lookupPath_none_ext (p := path ++ [k]) (by simp) hm)
      · rename_i m hm
        split at h
        · simp only [Except.ok.injEq, Prod.mk.injEq] at h
          intro v hvv
          rw [← h.1] at hvv
          exact absurd hvv (by simp)
        · rename_i hopt
          have hoptF : m.optoutApplies = false := by
            revert hopt
            cases m.optoutApplies <;> simp
          have hty : typeValidation (jGetD fpd k) ⟨m.type, m.isArray⟩ = true := by
            rcases hdisj with hnone | ⟨m', hm', hty'⟩
            · rw [hm] at hnone; exact absurd hnone (by simp)
            · rw [hm] at hm'
              simp only [Option.some.injEq] at hm'
              rw [← hm'] at hty'
              exact hty'
          split at h
          · exact absurd h (by simp)
          · rename_i md dm hms
            split at h <;> simp only [Except.ok.injEq, Prod.mk.injEq] at h
            · intro v hvv
              rw [← h.1] at hvv
              simp only [Option.some.injEq] at hvv
              refine ⟨by rw [hm]; simp [hoptF], ?_⟩
              rw [← hvv]
              exact hM tbl fpd path P k m md dm hsz hwf hm hty hms
            · intro v hvv
              rw [← h.1] at hvv
              exact absurd hvv (by simp)
    -- vfReduce
    have hD : ∀ (tbl : SchemaTbl) (fpd : JVal) (path : List String) (P : String)
        (ks : List String) (acc fs : List (String × JVal)) (ds : List Diag),
        sizeOf fpd ≤ n + 1 →
        allMaps wfChildType tbl = true →
        (∀ k ∈ ks, lookupPath tbl (path ++ [k]) = none ∨
          (∃ m, lookupPath tbl (path ++ [k]) = some m ∧
            typeValidation (jGetD fpd k) ⟨m.type, m.isArray⟩ = true)) →
        noOptoutFs tbl path acc = true →
        vfReduce tbl true fpd path P acc ks = .ok (fs, ds) →
        noOptoutFs tbl path fs = true := by
      intro tbl fpd path P ks
      induction ks with
      | nil =>
        intro acc fs ds _ _ _ hacc h
        rw [vfReduce_nil] at h
        simp only [Except.ok.injEq, Prod.mk.injEq] at h
        rw [← h.1]
        exact hacc
      | cons k ks ih =>
        intro acc fs ds hsz hwf hdisj hacc h
        obtain ⟨o, dk, ds', hrk, hrest, -⟩ := vfReduce_cons_ok h
        cases o with
        | some v =>
          obtain ⟨hcond, hnop⟩ := hE tbl fpd path P k (some v) dk hsz hwf
            (hdisj k (List.mem_cons_self _ _)) hrk v rfl
          exact ih (objSet acc k v) fs ds' hsz hwf
            (fun k' hk' => hdisj k' (List.mem_cons_of_mem _ hk'))
            (noOptoutFs_objSet hacc hcond hnop) hrest
        | none =>
          exact ih acc fs ds' hsz hwf
            (fun k' hk' => hdisj k' (List.mem_cons_of_mem _ hk')) hacc hrest
    -- validateFpd
    refine ⟨?_, hB⟩
    intro tbl fpd path P w ds hsz hwf h
    rcases validateFpd_ok_inv h with ⟨-, hw, -⟩ | ⟨-, fields, d3, hvf, hw, -⟩
    · rw [hw]; rfl
    · rw [hw]
      show noOptoutFs tbl path fields = true
      exact hD tbl fpd path P _ [] fields d3 hsz hwf
        (fun k hk => pass2_mem k hk) rfl hvf

/-- C7 (amended): when the redaction flag is active, no field whose
descriptor carries `optoutApplies` appears anywhere in the output,
provided the schema table satisfies the spec's own invariant (§3) that a
descriptor with `isArray` and `type='object'` carries a `childType`
(without it such an array passes through verbatim and can smuggle
redacted fields — see `C7_counterexample`). -/
theorem C7_redaction_wf (tbl : SchemaTbl) (fpd : JVal) (path : List String)
    (P : String) (w : JVal) (ds : List Diag)
    (hwf : allMaps wfChildType tbl = true)
    (h : validateFpd tbl true fpd path P = .ok (w, ds)) :
    noOptoutB tbl path w = true :=
  (redact_bounded (sizeOf fpd)).1 tbl fpd path P w ds (Nat.le_refl _) hwf h

set_option maxRecDepth 100000 in
set_option maxHeartbeats 1000000 in
unseal validateFpd vfReduce reduceKey modStep filterArrayData faReduce faStep allMaps in
/-- Witness for C7: under a well-formed table an `optoutApplies` field is
dropped and the output is redaction-clean. -/
theorem C7_witness :
    allMaps wfChildType
      [("a", Mapping.mk (some JType.number) false none false none false true none)] = true ∧
    validateFpd
      [("a", Mapping.mk (some JType.number) false none false none false true none)]
      true (.obj [("a", .num (.int 1))]) [] "" =
      .ok (.obj [], [.optoutFound "a"]) ∧
    noOptoutB
      [("a", Mapping.mk (some JType.number) false none false none false true none)]
      [] (.obj []) = true := by
  refine ⟨rfl, rfl, ?_⟩
  exact C7_redaction_wf _ (.obj [("a", .num (.int 1))]) [] "" (.obj [])
    [.optoutFound "a"] rfl rfl

/-! ## Forward equations and rebuild lemmas (used for C8) -/

theorem reduceKey_none {tbl : SchemaTbl} {ou : Bool} {fpd : JVal}
    {path : List String} {P k : String}
    (hm : lookupPath tbl (path ++ [k]) = none) :
    reduceKey tbl ou fpd path P k = .ok (some (jGetD fpd k), []) := by
  rw [reduceKey, hm]

theorem reduceKey_some {tbl : SchemaTbl} {ou : Bool} {fpd : JVal}
    {path : List String} {P k : String} {m : Mapping}
    (hm : lookupPath tbl (path ++ [k]) = some m)
    (ho : (m.optoutApplies && ou) = false) :
    reduceKey tbl ou fpd path P k =
      match modStep tbl ou fpd path P k m with
      | .error e => .error e
      | .ok (modified, dm) =>
        if !isEmptyData modified then .ok (some modified, dm)
        else .ok (none, dm ++ [Diag.emptyData (P ++ k)]) := by
  rw [reduceKey, hm]
  dsimp only
  rw [if_neg (by simp [ho])]

theorem modStep_obj_validate {tbl : SchemaTbl} {ou : Bool} {fpd : JVal}
    {path : List String} {P k : String} {m : Mapping} {fs : List (String × JVal)}
    (hc : (m.type == some JType.object && !m.isArray) = true)
    (hv : jGetD fpd k = .obj fs) :
    modStep tbl ou fpd path P k m =
      validateFpd tbl ou (.obj fs) (path ++ [k]) (P ++ k ++ ".") := by
  rw [modStep, if_pos hc]
  split
  · rename_i fs' hv'
    rw [hv] at hv'
    cases hv'
    rfl
  · rename_i xs' hv'
    rw [hv] at hv'
    exact absurd hv' (by simp)
  · rename_i hno hna
    exact absurd hv (hno fs)

theorem modStep_obj_arr {tbl : SchemaTbl} {ou : Bool} {fpd : JVal}
    {path : List String} {P k : String} {m : Mapping} {xs : List JVal}
    (hc : (m.type == some JType.object && !m.isArray) = true)
    (hv : jGetD fpd k = .arr xs) :
    modStep tbl ou fpd path P k m =
      validateFpd tbl ou (.arr xs) (path ++ [k]) (P ++ k ++ ".") := by
  rw [modStep, if_pos hc]
  split
  · rename_i fs' hv'
    rw [hv] at hv'
    exact absurd hv' (by simp)
  · rename_i xs' hv'
    rw [hv] at hv'
    cases hv'
    rfl
  · rename_i hno hna
    exact absurd hv (hna xs)

theorem modStep_arrbranch {tbl : SchemaTbl} {ou : Bool} {fpd : JVal}
    {path : List String} {P k : String} {m : Mapping} {xs : List JVal}
    (hc1 : (m.type == some JType.object && !m.isArray) = false)
    (hc2 : (m.isArray && m.childType.isSome) = true)
    (hv : jGetD fpd k = .arr xs) :
    modStep tbl ou fpd path P k m =
      match filterArrayData tbl ou xs ⟨m.childType, m.childisArray⟩
              (path ++ [k]) (P ++ k) with
      | .error e => .error e
      | .ok (ys, ds) => .ok (.arr ys, ds) := by
  rw [modStep, if_neg (by simp [hc1]), if_pos hc2]
  split
  · rename_i xs' hv'
    rw [hv] at hv'
    cases hv'
    rfl
  · rename_i hna
    exact absurd hv (hna xs)

theorem modStep_verbatim {tbl : SchemaTbl} {ou : Bool} {fpd : JVal}
    {path : List String} {P k : String} {m : Mapping}
    (hc1 : (m.type == some JType.object && !m.isArray) = false)
    (hc2 : (m.isArray && m.childType.isSome) = false) :
    modStep tbl ou fpd path P k m = .ok (jGetD fpd k, []) := by
  rw [modStep, if_neg (by simp [hc1]), if_neg (by simp [hc2])]

theorem typeValidation_arr_inv {xs : List JVal} {t : Option JType} {a : Bool}
    (h : typeValidation (.arr xs) ⟨t, a⟩ = true) :
    t = some JType.object ∧ a = true := by
  cases t with
  | none => simp [typeValidation] at h
  | some t' =>
    cases t' with
    | string => simp [typeValidation, jTypeof] at h
    | number => simp [typeValidation] at h
    | object =>
      refine ⟨rfl, ?_⟩
      simp only [typeValidation, jTypeof, jIsArray] at h
      revert h
      cases a <;> simp

theorem typeValidation_obj_true {fs : List (String × JVal)} :
    typeValidation (.obj fs) ⟨some JType.object, false⟩ = true := by
  simp [typeValidation, jTypeof, jIsArray]

theorem typeValidation_arr_true {xs : List JVal} :
    typeValidation (.arr xs) ⟨some JType.object, true⟩ = true := by
  simp [typeValidation, jTypeof, jIsArray]

/-! ## List and pass utilities for the idempotence claim -/

theorem pass1_mem {tbl : SchemaTbl} {path : List String} {P : String}
    {ks : List String} :
    ∀ k ∈ (pass1 tbl path P ks).1, k ≠ "" ∧
      (∀ m, lookupPath tbl (path ++ [k]) = some m → m.invalid = false) := by
  induction ks with
  | nil => simp [pass1]
  | cons k0 ks ih =>
    intro k hk
    simp only [pass1] at hk
    split at hk
    · rename_i hkeep
      split at hk
      · exact ih k hk
      · rename_i hne
        rcases List.mem_cons.1 hk with rfl | hk'
        · refine ⟨by simpa using hne, ?_⟩
          intro m hm
          rw [hm] at hkeep
          simpa using hkeep
        · exact ih k hk'
    · exact ih k hk

theorem pass2_sublist (tbl : SchemaTbl) (fpd : JVal) (path : List String)
    (P : String) (ks : List String) :
    (pass2 tbl fpd path P ks).1.Sublist ks := by
  induction ks with
  | nil => simp [pass2]
  | cons k ks ih =>
    simp only [pass2]
    split
    · split
      · exact ih.cons k
      · exact ih.cons₂ k
    · split
      · split
        · exact ih.cons k
        · exact ih.cons₂ k
      · exact ih.cons k

theorem pass1_all {tbl : SchemaTbl} {path : List String} {P : String}
    {ks : List String}
    (h : ∀ k ∈ ks, k ≠ "" ∧
      ∀ m, lookupPath tbl (path ++ [k]) = some m → m.invalid = false) :
    (pass1 tbl path P ks).1 = ks := by
  induction ks with
  | nil => rfl
  | cons k ks ih =>
    obtain ⟨hne, hinv⟩ := h k (List.mem_cons_self _ _)
    have ihr := ih (fun k' hk' => h k' (List.mem_cons_of_mem _ hk'))
    have hne' : (k == "") = false := by simp [hne]
    cases hm : lookupPath tbl (path ++ [k]) with
    | none => simp [pass1, hm, hne', ihr]
    | some m =>
      have hinv' : m.invalid = false := hinv m hm
      simp [pass1, hm, hne', hinv', ihr]

theorem pass2_all {tbl : SchemaTbl} {w : JVal} {path : List String} {P : String}
    {ks : List String}
    (h : ∀ k ∈ ks, k ≠ "" ∧
      (lookupPath tbl (path ++ [k]) = none ∨
       ∃ m, lookupPath tbl (path ++ [k]) = some m ∧
         typeValidation (jGetD w k) ⟨m.type, m.isArray⟩ = true)) :
    (pass2 tbl w path P ks).1 = ks := by
  induction ks with
  | nil => rfl
  | cons k ks ih =>
    obtain ⟨hne, hty⟩ := h k (List.mem_cons_self _ _)
    have ihr := ih (fun k' hk' => h k' (List.mem_cons_of_mem _ hk'))
    have hne' : (k == "") = false := by simp [hne]
    rcases hty with hm | ⟨m, hm, hty⟩
    · simp [pass2, hm, hne', ihr]
    · simp [pass2, hm, hty, hne', ihr]

theorem objSet_mem {acc : List (String × JVal)} {k k' : String} {v v' : JVal}
    (h : (k', v') ∈ objSet acc k v) : (k', v') ∈ acc ∨ (k' = k ∧ v' = v) := by
  induction acc with
  | nil =>
    simp only [objSet, List.mem_singleton, Prod.mk.injEq] at h
    exact Or.inr h
  | cons p rest ih =>
    obtain ⟨k0, v0⟩ := p
    simp only [objSet] at h
    split at h
    · rcases List.mem_cons.1 h with heq | h'
      · simp only [Prod.mk.injEq] at heq
        exact Or.inr heq
      · exact Or.inl (List.mem_cons_of_mem _ h')
    · rcases List.mem_cons.1 h with heq | h'
      · exact Or.inl (heq ▸ List.mem_cons_self _ _)
      · rcases ih h' with h2 | h2
        · exact Or.inl (List.mem_cons_of_mem _ h2)
        · exact Or.inr h2

theorem objSet_append {acc : List (String × JVal)} {k : String} {v : JVal}
    (h : k ∉ acc.map Prod.fst) : objSet acc k v = acc ++ [(k, v)] := by
  induction acc with
  | nil => rfl
  | cons p rest ih =>
    obtain ⟨k0, v0⟩ := p
    simp only [List.map_cons, List.mem_cons] at h
    push_neg at h
    simp only [objSet]
    rw [if_neg (by simp; exact fun he => h.1 he.symm)]
    rw [ih h.2]
    rfl

theorem objSet_keys (acc : List (String × JVal)) (k : String) (v : JVal) :
    (objSet acc k v).map Prod.fst =
      if k ∈ acc.map Prod.fst then acc.map Prod.fst
      else acc.map Prod.fst ++ [k] := by
  induction acc with
  | nil => simp [objSet]
  | cons p rest ih =>
    obtain ⟨k0, v0⟩ := p
    simp only [objSet]
    by_cases hk : k0 = k
    · subst hk
      rw [if_pos (by simp), if_pos (by simp)]
      simp
    · rw [if_neg (by simp [hk])]
      simp only [List.map_cons, ih]
      by_cases hmem : k ∈ rest.map Prod.fst
      · rw [if_pos hmem, if_pos (by simp [hmem])]
      · rw [if_neg hmem,
          if_neg (by simp only [List.mem_cons]; push_neg;
                     exact ⟨fun he => hk he.symm, hmem⟩)]
        rfl

theorem objSet_nodup {acc : List (String × JVal)} {k : String} {v : JVal}
    (h : (acc.map Prod.fst).Nodup) : ((objSet acc k v).map Prod.fst).Nodup := by
  rw [objSet_keys]
  split
  · exact h
  · rename_i hk
    simp [List.nodup_append, h, hk]

theorem lookup_of_mem_nodup {fs : List (String × JVal)} {k : String} {v : JVal}
    (hnd : (fs.map Prod.fst).Nodup) (hmem : (k, v) ∈ fs) :
    fs.lookup k = some v := by
  induction fs with
  | nil => exact absurd hmem (List.not_mem_nil _)
  | cons p rest ih =>
    obtain ⟨k0, v0⟩ := p
    simp only [List.map_cons, List.nodup_cons] at hnd
    rcases List.mem_cons.1 hmem with heq | hmem'
    · simp only [Prod.mk.injEq] at heq
      obtain ⟨h1, h2⟩ := heq
      subst h1
      subst h2
      simp [List.lookup]
    · have hne : k ≠ k0 := by
        intro he
        apply hnd.1
        subst he
        exact List.mem_map_of_mem Prod.fst hmem'
      have hbe : (k == k0) = false := by simp [hne]
      simp only [List.lookup, hbe]
      exact ih hnd.2 hmem'

theorem vfReduce_nodup {tbl : SchemaTbl} {ou : Bool} {fpd : JVal}
    {path : List String} {P : String} :
    ∀ {ks : List String} {acc fs : List (String × JVal)} {ds : List Diag},
    (acc.map Prod.fst).Nodup →
    vfReduce tbl ou fpd path P acc ks = .ok (fs, ds) →
    (fs.map Prod.fst).Nodup := by
  intro ks
  induction ks with
  | nil =>
    intro acc fs ds hnd h
    rw [vfReduce_nil] at h
    simp only [Except.ok.injEq, Prod.mk.injEq] at h
    exact h.1 ▸ hnd
  | cons k ks ih =>
    intro acc fs ds hnd h
    obtain ⟨o, dk, ds', hrk, hrest, -⟩ := vfReduce_cons_ok h
    cases o with
    | some v => exact ih (objSet_nodup hnd) hrest
    | none => exact ih hnd hrest

theorem vfReduce_props {tbl : SchemaTbl} {ou : Bool} {fpd : JVal}
    {path : List String} {P : String} (Pr : String → JVal → Prop) :
    ∀ {ks : List String} {acc fs : List (String × JVal)} {ds : List Diag},
    (∀ k ∈ ks, ∀ v dk, reduceKey tbl ou fpd path P k = .ok (some v, dk) → Pr k v) →
    (∀ kv ∈ acc, Pr kv.1 kv.2) →
    vfReduce tbl ou fpd path P acc ks = .ok (fs, ds) →
    ∀ kv ∈ fs, Pr kv.1 kv.2 := by
  intro ks
  induction ks with
  | nil =>
    intro acc fs ds _ hacc h
    rw [vfReduce_nil] at h
    simp only [Except.ok.injEq, Prod.mk.injEq] at h
    exact h.1 ▸ hacc
  | cons k ks ih =>
    intro acc fs ds hks hacc h
    obtain ⟨o, dk, ds', hrk, hrest, -⟩ := vfReduce_cons_ok h
    have hks' : ∀ k' ∈ ks, ∀ v dk',
        reduceKey tbl ou fpd path P k' = .ok (some v, dk') → Pr k' v :=
      fun k' hk' => hks k' (List.mem_cons_of_mem _ hk')
    cases o with
    | some v =>
      refine ih hks' ?_ hrest
      intro kv hkv
      rcases objSet_mem hkv with hin | ⟨h1, h2⟩
      · exact hacc kv hin
      · rw [h1, h2]
        exact hks k (List.mem_cons_self _ _) v dk hrk
    | none => exact ih hks' hacc hrest

theorem vfReduce_rebuild {tbl : SchemaTbl} {ou : Bool} {W : JVal}
    {path : List String} {P : String} :
    ∀ (fields acc : List (String × JVal)),
    ((fields.map Prod.fst).Nodup) →
    (∀ k ∈ fields.map Prod.fst, k ∉ acc.map Prod.fst) →
    (∀ kv ∈ fields, ∃ dk, reduceKey tbl ou W path P kv.1 = .ok (some kv.2, dk)) →
    ∃ ds', vfReduce tbl ou W path P acc (fields.map Prod.fst) =
      .ok (acc ++ fields, ds') := by
  intro fields
  induction fields with
  | nil =>
    intro acc _ _ _
    exact ⟨[], by simp only [List.map_nil]; rw [vfReduce_nil]; simp⟩
  | cons kv rest ih =>
    intro acc hnd hdisj hprops
    obtain ⟨k, v⟩ := kv
    obtain ⟨dk, hrk⟩ := hprops (k, v) (List.mem_cons_self _ _)
    simp only [List.map_cons, List.nodup_cons] at hnd
    have hnotacc : k ∉ acc.map Prod.fst :=
      hdisj k (by simp)
    have hdisj' : ∀ k' ∈ rest.map Prod.fst,
        k' ∉ (acc ++ [(k, v)]).map Prod.fst := by
      intro k' hk'
      simp only [List.map_append, List.mem_append, List.map_cons,
        List.map_nil, List.mem_singleton]
      push_neg
      refine ⟨hdisj k' (by simp [hk']), ?_⟩
      intro he
      exact hnd.1 (he ▸ hk')
    obtain ⟨ds', hrest⟩ := ih (acc ++ [(k, v)]) hnd.2 hdisj'
      (fun kv' hkv' => hprops kv' (List.mem_cons_of_mem _ hkv'))
    refine ⟨dk ++ ds', ?_⟩
    simp only [List.map_cons]
    rw [vfReduce_cons, hrk]
    dsimp only
    rw [objSet_append hnotacc, hrest]
    simp

theorem stage1_all {c : TypeDesc} {Q : String} {l : List JVal}
    (h : ∀ v ∈ l,
      (typeValidation v ⟨c.type, c.isArray⟩ && (jIsArray v == c.isArray)) = true) :
    ∀ i, (stage1 c Q i l).1 = l := by
  induction l with
  | nil => intro i; rfl
  | cons v rest ih =>
    intro i
    have hv := h v (List.mem_cons_self _ _)
    have ihr := ih (fun v' hv' => h v' (List.mem_cons_of_mem _ hv'))
    simp only [stage1]
    split
    · simp [ihr]
    · rename_i hcon
      exact absurd hv hcon

theorem stage2_all {tbl : SchemaTbl} {path : List String} {Q : String}
    {m : Mapping} {l : List JVal}
    (hm : lookupPath tbl path = some m)
    (h : ∀ v ∈ l, m.required.isSome = true →
      ∀ j, ∃ ds', getRequiredData v m.required Q j = .ok (true, ds')) :
    ∀ i, ∃ ds, stage2 tbl path Q i l = .ok (l, ds) := by
  induction l with
  | nil => intro i; exact ⟨[], rfl⟩
  | cons v rest ih =>
    intro i
    obtain ⟨ds', hrest⟩ := ih (fun v' hv' => h v' (List.mem_cons_of_mem _ hv')) (i + 1)
    simp only [stage2, hm]
    by_cases hreq : m.required.isSome = true
    · obtain ⟨ds0, hgr⟩ := h v (List.mem_cons_self _ _) hreq i
      rw [if_pos hreq, hgr]
      dsimp only
      rw [hrest]
      exact ⟨ds0 ++ ds', by simp⟩
    · rw [if_neg hreq]
      dsimp only
      rw [hrest]
      exact ⟨[] ++ ds', by simp⟩

theorem faReduce_rebuild {tbl : SchemaTbl} {ou : Bool} {c : TypeDesc}
    {path : List String} {Q : String} {l : List JVal}
    (h : ∀ w ∈ l, ∀ j, ∃ dv, faStep tbl ou c path Q j w = .ok (some w, dv)) :
    ∀ i, ∃ ds, faReduce tbl ou c path Q i l = .ok (l, ds) := by
  induction l with
  | nil => intro i; exact ⟨[], faReduce_nil _ _ _ _ _ _⟩
  | cons v rest ih =>
    intro i
    obtain ⟨dv, hstep⟩ := h v (List.mem_cons_self _ _) i
    obtain ⟨ds', hrest⟩ := ih (fun w hw => h w (List.mem_cons_of_mem _ hw)) (i + 1)
    refine ⟨dv ++ ds', ?_⟩
    rw [faReduce_cons, hstep]
    dsimp only
    rw [hrest]

theorem faStep_children_inv {tbl : SchemaTbl} {ou : Bool} {c : TypeDesc}
    {path : List String} {Q : String} {i : Nat} {v w : JVal} {dv : List Diag}
    {m : Mapping}
    (hc : c.type = some JType.object) (hm : lookupPath tbl path = some m)
    (hch : m.children.isSome = true)
    (h : faStep tbl ou c path Q i v = .ok (some w, dv)) :
    ∃ dw dr, validateFpd tbl ou v path (Q ++ ".") = .ok (w, dw) ∧
      (jKeys w).length ≠ 0 ∧
      getRequiredData w m.required Q i = .ok (true, dr) ∧ dv = dw ++ dr := by
  rw [faStep_object_children hc hm hch] at h
  split at h
  · exact absurd h (by simp)
  · rename_i w' dw hvf
    split at h
    · rename_i hk
      split at h
      · exact absurd h (by simp)
      · rename_i rc dr hgr
        split at h
        · rename_i hrc
          simp only [Except.ok.injEq, Prod.mk.injEq, Option.some.injEq] at h
          obtain ⟨hww, hdd⟩ := h
          subst hww
          rw [hrc] at hgr
          exact ⟨dw, dr, hvf, hk, hgr, hdd.symm⟩
        · exact absurd h (by simp)
    · exact absurd h (by simp)

theorem validateFpd_emptyobj (tbl : SchemaTbl) (ou : Bool)
    (path : List String) (P : String) :
    validateFpd tbl ou (.obj []) path P = .ok (.obj [], []) := by
  rw [validateFpd_truthy (show jTruthy (JVal.obj []) = true from rfl)]
  have hjk : jKeys (JVal.obj []) = [] := rfl
  rw [hjk]
  have hp1 : pass1 tbl path P [] = ([], []) := rfl
  rw [hp1]
  have hp2 : pass2 tbl (JVal.obj []) path P [] = ([], []) := rfl
  rw [hp2]
  rw [vfReduce_nil]
  rfl

/-! ## Claim C1: counterexample (Scenario C), evaluated through the
equation lemmas (the kernel only ever reduces the structural helpers) -/

theorem vfReduce_scenC_inner :
    vfReduce tblScenC false (JVal.obj [("id", .str ""), ("name", .str "x")])
      ([] ++ ["user"]) ("" ++ "user" ++ ".") [] ["id", "name"] =
      .ok ([("id", .str ""), ("name", .str "x")], []) := by
  have hid : reduceKey tblScenC false
      (JVal.obj [("id", .str ""), ("name", .str "x")])
      ([] ++ ["user"]) ("" ++ "user" ++ ".") "id" = .ok (some (.str ""), []) :=
    reduceKey_none rfl
  have hname : reduceKey tblScenC false
      (JVal.obj [("id", .str ""), ("name", .str "x")])
      ([] ++ ["user"]) ("" ++ "user" ++ ".") "name" = .ok (some (.str "x"), []) :=
    reduceKey_none rfl
  rw [vfReduce_cons, hid]
  dsimp only
  rw [vfReduce_cons, hname]
  dsimp only
  rw [vfReduce_nil]
  rfl

theorem validateFpd_scenC_inner :
    validateFpd tblScenC false (JVal.obj [("id", .str ""), ("name", .str "x")])
      ([] ++ ["user"]) ("" ++ "user" ++ ".") =
      .ok (.obj [("id", .str ""), ("name", .str "x")], []) := by
  rw [validateFpd_truthy (show jTruthy
    (JVal.obj [("id", .str ""), ("name", .str "x")]) = true from rfl)]
  have hks : (pass2 tblScenC (JVal.obj [("id", .str ""), ("name", .str "x")])
      ([] ++ ["user"]) ("" ++ "user" ++ ".")
      (pass1 tblScenC ([] ++ ["user"]) ("" ++ "user" ++ ".")
        (jKeys (JVal.obj [("id", .str ""), ("name", .str "x")]))).1).1 =
      ["id", "name"] := rfl
  rw [hks, vfReduce_scenC_inner]
  rfl

/-- C1 counterexample: with the Scenario C schema and input, the claim
says the output omits `user` entirely with one missing-`id` diagnostic;
the source emits no diagnostic and keeps `user` unchanged (with its empty
`id`), because `validateFpd` never consults `required` for non-array
object descriptors. -/
theorem C1_counterexample :
    validateFpd tblScenC false fpdScenC [] "" = .ok (fpdScenC, []) := by
  have hruser : reduceKey tblScenC false fpdScenC [] "" "user" =
      .ok (some (.obj [("id", .str ""), ("name", .str "x")]), []) := by
    rw [reduceKey_some
      (show lookupPath tblScenC ([] ++ ["user"]) =
        some (.mk (some .object) false none false (some ["id"]) false false none)
        from rfl) rfl]
    rw [modStep_obj_validate
      (show ((Mapping.mk (some JType.object) false none false (some ["id"])
          false false none).type == some JType.object &&
        !(Mapping.mk (some JType.object) false none false (some ["id"])
          false false none).isArray) = true from rfl)
      (show jGetD fpdScenC "user" =
        JVal.obj [("id", .str ""), ("name", .str "x")] from rfl)]
    rw [validateFpd_scenC_inner]
    rfl
  rw [validateFpd_truthy (show jTruthy fpdScenC = true from rfl)]
  have hks0 : (pass2 tblScenC fpdScenC [] ""
      (pass1 tblScenC [] "" (jKeys fpdScenC)).1).1 = ["user"] := rfl
  rw [hks0, vfReduce_cons, hruser]
  dsimp only
  rw [vfReduce_nil]
  rfl

/-! ## Claim C8 (amended): idempotence under the schema invariant that no
descriptor combines `childisArray`, `childType='object'` and `children` -/

theorem bool_eq_false_of_ne {b : Bool} (h : ¬ b = true) : b = false := by
  cases b
  · rfl
  · exact absurd rfl h

theorem idem_bounded : ∀ n : Nat,
    (∀ (tbl : SchemaTbl) (ou : Bool) (fpd : JVal) (path : List String)
       (P : String) (w : JVal) (ds : List Diag), sizeOf fpd ≤ n →
       allMaps wfNoArrayOfObjArrays tbl = true →
       validateFpd tbl ou fpd path P = .ok (w, ds) →
       ∃ ds', validateFpd tbl ou w path P = .ok (w, ds')) ∧
    (∀ (tbl : SchemaTbl) (ou : Bool) (xs : List JVal) (c : TypeDesc)
       (path : List String) (Q : String) (m : Mapping) (ys : List JVal)
       (ds : List Diag), sizeOf xs ≤ n →
       allMaps wfNoArrayOfObjArrays tbl = true →
       lookupPath tbl path = some m →
       ¬(c.isArray = true ∧ c.type = some JType.object ∧ m.children.isSome = true) →
       filterArrayData tbl ou xs c path Q = .ok (ys, ds) →
       ∃ ds', filterArrayData tbl ou ys c path Q = .ok (ys, ds')) := by
  intro n
  induction n with
  | zero =>
    refine ⟨fun tbl ou fpd _ _ _ _ hsz _ _ => ?_,
            fun tbl ou xs _ _ _ _ _ _ hsz _ _ _ _ => ?_⟩
    · exact absurd hsz (by have := sizeOf_jval_pos fpd; omega)
    · exact absurd hsz (by have := sizeOf_jlist_pos xs; omega)
  | succ n ihn =>
    obtain ⟨ihA, ihB⟩ := ihn
    have hB : ∀ (tbl : SchemaTbl) (ou : Bool) (xs : List JVal) (c : TypeDesc)
        (path : List String) (Q : String) (m : Mapping) (ys : List JVal)
        (ds : List Diag), sizeOf xs ≤ n + 1 →
        allMaps wfNoArrayOfObjArrays tbl = true →
        lookupPath tbl path = some m →
        ¬(c.isArray = true ∧ c.type = some JType.object ∧ m.children.isSome = true) →
        filterArrayData tbl ou xs c path Q = .ok (ys, ds) →
        ∃ ds', filterArrayData tbl ou ys c path Q = .ok (ys, ds') := by
      intro tbl ou xs c path Q m ys ds hsz hwf hm hnc h
      obtain ⟨s2, d2, d3, h2, h3, -⟩ := filterArrayData_ok_inv h
      have helem : ∀ w ∈ ys,
          ((typeValidation w ⟨c.type, c.isArray⟩ && (jIsArray w == c.isArray)) = true) ∧
          (m.required.isSome = true →
            ∀ j, ∃ dr', getRequiredData w m.required Q j = .ok (true, dr')) ∧
          (∀ j, ∃ dv', faStep tbl ou c path Q j w = .ok (some w, dv')) := by
        intro w hw
        obtain ⟨j, v, dv, hv, hstep⟩ := faReduce_mem h3 w hw
        have hvs1 : v ∈ (stage1 c Q 0 xs).1 := (stage2_sublist h2).subset hv
        have hvxs : v ∈ xs := (stage1_sublist c Q 0 xs).subset hvs1
        have hvsz : sizeOf v ≤ n := by
          have := List.sizeOf_lt_of_mem hvxs
          omega
        have hreqv := (stage2_mem h2 v hv).2
        cases hct : c.type with
        | none =>
          rw [faStep_number_or_none (by simp [hct]) (by simp [hct])] at hstep
          exact absurd hstep (by simp)
        | some t =>
          cases t with
          | number =>
            rw [faStep_number_or_none (by simp [hct]) (by simp [hct])] at hstep
            exact absurd hstep (by simp)
          | string =>
            rw [faStep_string hct] at hstep
            simp only [Except.ok.injEq, Prod.mk.injEq, Option.some.injEq] at hstep
            obtain ⟨hvw, -⟩ := hstep
            subst hvw
            refine ⟨?_, ?_, ?_⟩
            · have h1 := (stage1_mem _ hvs1).2
              rw [hct] at h1
              exact h1
            · intro hrs j'
              obtain ⟨j0, ds0, hg⟩ := hreqv m hm hrs
              obtain ⟨req, hreq⟩ := Option.isSome_iff_exists.1 hrs
              rw [hreq] at hg ⊢
              exact getRequiredData_relabel hg
            · intro j'
              exact ⟨[], faStep_string hct⟩
          | object =>
            cases hch : m.children with
            | none =>
              rw [faStep_object_nochildren hct hm (by simp [hch])] at hstep
              simp only [Except.ok.injEq, Prod.mk.injEq, Option.some.injEq] at hstep
              obtain ⟨hvw, -⟩ := hstep
              subst hvw
              refine ⟨?_, ?_, ?_⟩
              · have h1 := (stage1_mem _ hvs1).2
                rw [hct] at h1
                exact h1
              · intro hrs j'
                obtain ⟨j0, ds0, hg⟩ := hreqv m hm hrs
                obtain ⟨req, hreq⟩ := Option.isSome_iff_exists.1 hrs
                rw [hreq] at hg ⊢
                exact getRequiredData_relabel hg
              · intro j'
                exact ⟨[], faStep_object_nochildren hct hm (by simp [hch])⟩
            | some ch =>
              have hchs : m.children.isSome = true := by simp [hch]
              obtain ⟨dw, dr, hvf, hk0, hgr, -⟩ := faStep_children_inv hct hm hchs hstep
              have hcia : c.isArray = false := by
                cases hia : c.isArray
                · rfl
                · exact absurd ⟨hia, hct, hchs⟩ hnc
              obtain ⟨fields', hwobj⟩ := validateFpd_ok_obj hvf
              obtain ⟨dw', hvf'⟩ := ihA tbl ou v path (Q ++ ".") w dw hvsz hwf hvf
              have hgrall : ∀ j', ∃ dr',
                  getRequiredData w m.required Q j' = .ok (true, dr') := by
                cases hreq : m.required with
                | none =>
                  rw [hreq] at hgr
                  simp [getRequiredData] at hgr
                | some req =>
                  intro j'
                  rw [hreq] at hgr
                  exact getRequiredData_relabel hgr
              refine ⟨?_, ?_, ?_⟩
              · rw [hwobj, hcia]
                simp [typeValidation_obj_true, jIsArray]
              · intro _ j'
                exact hgrall j'
              · intro j'
                obtain ⟨dr', hgr'⟩ := hgrall j'
                refine ⟨dw' ++ dr', ?_⟩
                rw [faStep_object_children hct hm hchs, hvf']
                dsimp only
                rw [if_pos hk0, hgr']
                dsimp only
                rw [if_pos rfl]
      have hs1 : ∀ i, (stage1 c Q i ys).1 = ys :=
        stage1_all (fun w hw => (helem w hw).1)
      obtain ⟨ds2', hst2⟩ := stage2_all hm (fun w hw => (helem w hw).2.1) 0
      obtain ⟨ds3', hfa0⟩ := faReduce_rebuild (fun w hw => (helem w hw).2.2) 0
      refine ⟨(stage1 c Q 0 ys).2 ++ ds2' ++ ds3', ?_⟩
      rw [filterArrayData_eq, hs1 0, hst2]
      dsimp only
      rw [hfa0]
    have hA : ∀ (tbl : SchemaTbl) (ou : Bool) (fpd : JVal) (path : List String)
        (P : String) (w : JVal) (ds : List Diag), sizeOf fpd ≤ n + 1 →
        allMaps wfNoArrayOfObjArrays tbl = true →
        validateFpd tbl ou fpd path P = .ok (w, ds) →
        ∃ ds', validateFpd tbl ou w path P = .ok (w, ds') := by
      intro tbl ou fpd path P w ds hsz hwf h
      rcases validateFpd_ok_inv h with ⟨-, hw, -⟩ | ⟨hft, fields, d3, hvf, hw, -⟩
      · subst hw
        exact ⟨[], validateFpd_emptyobj tbl ou path P⟩
      · subst hw
        have hnodup : (fields.map Prod.fst).Nodup :=
          vfReduce_nodup (by simp) hvf
        have hprops : ∀ kv ∈ fields,
            kv.1 ∈ (pass2 tbl fpd path P (pass1 tbl path P (jKeys fpd)).1).1 ∧
            ∃ dk, reduceKey tbl ou fpd path P kv.1 = .ok (some kv.2, dk) :=
          vfReduce_props
            (fun k v =>
              k ∈ (pass2 tbl fpd path P (pass1 tbl path P (jKeys fpd)).1).1 ∧
              ∃ dk, reduceKey tbl ou fpd path P k = .ok (some v, dk))
            (fun k hk v dk he => ⟨hk, dk, he⟩)
            (fun kv hkv => absurd hkv (List.not_mem_nil kv))
            hvf
        have hk2 : ∀ kv ∈ fields, kv.1 ∈ (pass1 tbl path P (jKeys fpd)).1 :=
          fun kv hkv => (pass2_sublist tbl fpd path P _).subset (hprops kv hkv).1
        have hjget : ∀ kv ∈ fields, jGetD (JVal.obj fields) kv.1 = kv.2 := by
          intro kv hkv
          obtain ⟨k, v⟩ := kv
          show (fields.lookup k).getD .undef = v
          rw [lookup_of_mem_nodup hnodup hkv]
          rfl
        have hK : ∀ kv ∈ fields,
            (∀ W, jGetD W kv.1 = kv.2 →
              ∃ dk', reduceKey tbl ou W path P kv.1 = .ok (some kv.2, dk')) ∧
            (lookupPath tbl (path ++ [kv.1]) = none ∨
              ∃ m', lookupPath tbl (path ++ [kv.1]) = some m' ∧
                typeValidation kv.2 ⟨m'.type, m'.isArray⟩ = true) := by
          intro kv hkv
          obtain ⟨k, v⟩ := kv
          dsimp only
          obtain ⟨hkin, dk, hrk⟩ := hprops (k, v) hkv
          have hkin' : k ∈
              (pass2 tbl fpd path P (pass1 tbl path P (jKeys fpd)).1).1 := hkin
          have hrk' : reduceKey tbl ou fpd path P k = .ok (some v, dk) := hrk
          clear hkin hrk
          cases hlk : lookupPath tbl (path ++ [k]) with
          | none =>
            rw [reduceKey_none hlk] at hrk'
            simp only [Except.ok.injEq, Prod.mk.injEq, Option.some.injEq] at hrk'
            refine ⟨?_, Or.inl rfl⟩
            intro W hW
            refine ⟨[], ?_⟩
            rw [reduceKey_none hlk, hW]
          | some m' =>
            have hwfm := (allMaps_lookupPath hwf hlk).1
            by_cases ho : (m'.optoutApplies && ou) = true
            · rw [reduceKey, hlk] at hrk'
              dsimp only at hrk'
              rw [if_pos ho] at hrk'
              exact absurd hrk' (by simp)
            · have ho' : (m'.optoutApplies && ou) = false := bool_eq_false_of_ne ho
              rw [reduceKey_some hlk ho'] at hrk'
              split at hrk'
              · exact absurd hrk' (by simp)
              · rename_i md dm hmod
                split at hrk'
                · rename_i hemp
                  simp only [Except.ok.injEq, Prod.mk.injEq, Option.some.injEq] at hrk'
                  obtain ⟨hmdv, -⟩ := hrk'
                  subst hmdv
                  rw [modStep] at hmod
                  split at hmod
                  · rename_i hc1
                    split at hmod
                    · rename_i fs hv
                      have hlt : sizeOf (JVal.obj fs) < sizeOf fpd := by
                        have := jGetD_struct_lt fpd k (by rw [hv]; rfl)
                        rw [hv] at this
                        exact this
                      obtain ⟨dm2, hvf2⟩ := ihA tbl ou (.obj fs) (path ++ [k])
                        (P ++ k ++ ".") md dm (by omega) hwf hmod
                      obtain ⟨fields', hmdobj⟩ := validateFpd_ok_obj hmod
                      have hc1' := hc1
                      simp only [Bool.and_eq_true, beq_iff_eq,
                        Bool.not_eq_true'] at hc1'
                      refine ⟨?_, Or.inr ⟨m', rfl, ?_⟩⟩
                      · intro W hW
                        refine ⟨dm2, ?_⟩
                        rw [reduceKey_some hlk ho',
                            modStep_obj_validate hc1 (by rw [hW]; exact hmdobj),
                            ← hmdobj, hvf2]
                        dsimp only
                        rw [if_pos hemp]
                      · rw [hmdobj, hc1'.1, hc1'.2]
                        exact typeValidation_obj_true
                    · rename_i xs hv
                      have hlt : sizeOf (JVal.arr xs) < sizeOf fpd := by
                        have := jGetD_struct_lt fpd k (by rw [hv]; rfl)
                        rw [hv] at this
                        exact this
                      obtain ⟨dm2, hvf2⟩ := ihA tbl ou (.arr xs) (path ++ [k])
                        (P ++ k ++ ".") md dm (by omega) hwf hmod
                      obtain ⟨fields', hmdobj⟩ := validateFpd_ok_obj hmod
                      have hc1' := hc1
                      simp only [Bool.and_eq_true, beq_iff_eq,
                        Bool.not_eq_true'] at hc1'
                      refine ⟨?_, Or.inr ⟨m', rfl, ?_⟩⟩
                      · intro W hW
                        refine ⟨dm2, ?_⟩
                        rw [reduceKey_some hlk ho',
                            modStep_obj_validate hc1 (by rw [hW]; exact hmdobj),
                            ← hmdobj, hvf2]
                        dsimp only
                        rw [if_pos hemp]
                      · rw [hmdobj, hc1'.1, hc1'.2]
                        exact typeValidation_obj_true
                    · simp only [Except.ok.injEq, Prod.mk.injEq] at hmod
                      obtain ⟨hmd, -⟩ := hmod
                      rw [← hmd] at hemp
                      exact absurd hemp (by decide)
                  · rename_i hc1
                    split at hmod
                    · rename_i hc2
                      split at hmod
                      · rename_i xs hv
                        split at hmod
                        · exact absurd hmod (by simp)
                        · rename_i ys' ds2 hfa
                          simp only [Except.ok.injEq, Prod.mk.injEq] at hmod
                          obtain ⟨hmd, -⟩ := hmod
                          have hlt : sizeOf (JVal.arr xs) < sizeOf fpd := by
                            have := jGetD_struct_lt fpd k (by rw [hv]; rfl)
                            rw [hv] at this
                            exact this
                          have hxs : sizeOf xs ≤ n := by
                            simp only [JVal.arr.sizeOf_spec] at hlt
                            omega
                          have hnc2 :
                              ¬((⟨m'.childType, m'.childisArray⟩ : TypeDesc).isArray = true ∧
                                (⟨m'.childType, m'.childisArray⟩ : TypeDesc).type =
                                  some JType.object ∧
                                m'.children.isSome = true) := by
                            rintro ⟨ha, hb, hc⟩
                            have ha' : m'.childisArray = true := ha
                            have hb' : m'.childType = some JType.object := hb
                            simp [wfNoArrayOfObjArrays, ha', hb', hc] at hwfm
                          obtain ⟨ds2', hfa2⟩ := ihB tbl ou xs
                            ⟨m'.childType, m'.childisArray⟩ (path ++ [k]) (P ++ k)
                            m' ys' ds2 hxs hwf hlk hnc2 hfa
                          have hc1f : (m'.type == some JType.object && !m'.isArray) = false :=
                            bool_eq_false_of_ne hc1
                          refine ⟨?_, Or.inr ⟨m', rfl, ?_⟩⟩
                          · intro W hW
                            refine ⟨ds2', ?_⟩
                            rw [reduceKey_some hlk ho',
                                modStep_arrbranch hc1f hc2 (by rw [hW]; exact hmd.symm)]
                            rw [hfa2]
                            dsimp only
                            rw [if_pos (by rw [hmd]; exact hemp), hmd]
                          · rcases pass2_mem k hkin' with hn | ⟨m2, hm2, hty⟩
                            · rw [hn] at hlk
                              exact absurd hlk (by simp)
                            · rw [hlk] at hm2
                              injection hm2 with hm2
                              subst hm2
                              rw [hv] at hty
                              obtain ⟨hto, hta⟩ := typeValidation_arr_inv hty
                              rw [← hmd, hto, hta]
                              exact typeValidation_arr_true
                      · exact absurd hmod (by simp)
                    · rename_i hc2
                      have hc1f : (m'.type == some JType.object && !m'.isArray) = false :=
                        bool_eq_false_of_ne hc1
                      have hc2f : (m'.isArray && m'.childType.isSome) = false :=
                        bool_eq_false_of_ne hc2
                      simp only [Except.ok.injEq, Prod.mk.injEq] at hmod
                      obtain ⟨hmd, -⟩ := hmod
                      refine ⟨?_, ?_⟩
                      · intro W hW
                        refine ⟨[], ?_⟩
                        rw [reduceKey_some hlk ho', modStep_verbatim hc1f hc2f, hW]
                        dsimp only
                        rw [if_pos hemp]
                      · rcases pass2_mem k hkin' with hn | ⟨m2, hm2, hty⟩
                        · rw [hn] at hlk
                          exact absurd hlk (by simp)
                        · rw [hlk] at hm2
                          injection hm2 with hm2
                          subst hm2
                          rw [hmd] at hty
                          exact Or.inr ⟨m', rfl, hty⟩
                · exact absurd hrk' (by simp)
        have hp1 : (pass1 tbl path P (fields.map Prod.fst)).1 =
            fields.map Prod.fst := by
          refine pass1_all ?_
          intro k hk
          obtain ⟨kv, hkv, rfl⟩ := List.mem_map.1 hk
          exact pass1_mem kv.1 (hk2 kv hkv)
        have hp2 : (pass2 tbl (JVal.obj fields) path P (fields.map Prod.fst)).1 =
            fields.map Prod.fst := by
          refine pass2_all ?_
          intro k hk
          obtain ⟨kv, hkv, rfl⟩ := List.mem_map.1 hk
          refine ⟨(pass1_mem kv.1 (hk2 kv hkv)).1, ?_⟩
          rcases (hK kv hkv).2 with hn | ⟨m', hm', hty⟩
          · exact Or.inl hn
          · exact Or.inr ⟨m', hm', by rw [hjget kv hkv]; exact hty⟩
        obtain ⟨d3', hreb⟩ := vfReduce_rebuild fields [] hnodup
          (fun k hk => by simp)
          (fun kv hkv => (hK kv hkv).1 (JVal.obj fields) (hjget kv hkv))
        rw [List.nil_append] at hreb
        refine ⟨(pass1 tbl path P (fields.map Prod.fst)).2 ++
          (pass2 tbl (JVal.obj fields) path P (fields.map Prod.fst)).2 ++ d3', ?_⟩
        rw [validateFpd_truthy (show jTruthy (JVal.obj fields) = true from rfl)]
        have hjk : jKeys (JVal.obj fields) = fields.map Prod.fst := rfl
        rw [hjk, hp1, hp2, hreb]
    exact ⟨hA, hB⟩

theorem allMaps_nil {p : Mapping → Bool} : allMaps p [] = true := by
  rw [allMaps]

theorem allMaps_tblC8 : allMaps wfNoArrayOfObjArrays tblC8 = true := by
  show allMaps wfNoArrayOfObjArrays [("a", mC8)] = true
  rw [allMaps_cons]
  have hch : mC8.children.getD [] = ([] : SchemaTbl) := rfl
  rw [hch, allMaps_nil]
  rfl

theorem validateFpd_tblC8_run1 :
    validateFpd tblC8 false fpdC8 [] "" = .ok (fpdC8, []) := by
  have hra : reduceKey tblC8 false fpdC8 [] "" "a" =
      .ok (some (.num (.int 1)), []) := by
    rw [reduceKey_some (show lookupPath tblC8 ([] ++ ["a"]) = some mC8 from rfl)
        (show (mC8.optoutApplies && false) = false from rfl),
      modStep_verbatim
        (show (mC8.type == some JType.object && !mC8.isArray) = false from rfl)
        (show (mC8.isArray && mC8.childType.isSome) = false from rfl)]
    rfl
  rw [validateFpd_truthy (show jTruthy fpdC8 = true from rfl)]
  have hks : (pass2 tblC8 fpdC8 [] ""
      (pass1 tblC8 [] "" (jKeys fpdC8)).1).1 = ["a"] := rfl
  rw [hks, vfReduce_cons, hra]
  dsimp only
  rw [vfReduce_nil]
  rfl

/-- C8 (amended): when no schema descriptor combines `childisArray`,
`childType='object'` and a nested `children` table, a successful
`validateFpd` run is idempotent: feeding its output back in yields the
same output again (the diagnostics may differ).  Without that invariant
the counterexample shows a first output that the second run tears down. -/
theorem C8_idempotent_wf (tbl : SchemaTbl) (ou : Bool) (fpd : JVal)
    (path : List String) (P : String) (w : JVal) (ds : List Diag)
    (hwf : allMaps wfNoArrayOfObjArrays tbl = true)
    (h : validateFpd tbl ou fpd path P = .ok (w, ds)) :
    ∃ ds', validateFpd tbl ou w path P = .ok (w, ds') :=
  (idem_bounded (sizeOf fpd)).1 tbl ou fpd path P w ds (Nat.le_refl _) hwf h

/-- Witness for the idempotence theorem: a concrete schema table
satisfying the invariant and a concrete successful run, to which the
theorem applies. -/
theorem C8_witness :
    allMaps wfNoArrayOfObjArrays tblC8 = true ∧
    validateFpd tblC8 false fpdC8 [] "" = .ok (fpdC8, []) ∧
    ∃ ds', validateFpd tblC8 false fpdC8 [] "" = .ok (fpdC8, ds') :=
  ⟨allMaps_tblC8, validateFpd_tblC8_run1,
    C8_idempotent_wf tblC8 false fpdC8 [] "" fpdC8 []
      allMaps_tblC8 validateFpd_tblC8_run1⟩
